import Mathlib

/-! # bloom_filter: a shallow embedding of `bloom_filter.hpp`

The class template `bloom_filter<T, Hasher>` is embedded as a structure holding the bit
vector and the probe count, and its member functions as functions that take the `Hasher`
(the static function `Hasher::hash : T → uint64 × uint64`) as an explicit argument.

Conventions of the embedding:

* `std::vector<bool>` is a `List Bool`; `std::size_t` and `std::uint64_t` values are `Nat`
  with an explicit `% 2 ^ 64` where the source arithmetic wraps; `std::int32_t` is `Int`.
* A member function returns `none` where the C++ program has no defined result: a modulo by
  `bits.size() = 0`, or the countdown `while (i--)` started from a negative `int`.
* The constructor returns `Except String _`, the error carrying the message of the
  `std::invalid_argument` that is thrown.  Allocation of the bit vector is assumed to
  succeed.
-/

/-- The class `bloom_filter<T, Hasher>`: its two data members (line 186). -/
structure bloom_filter where
  bits : List Bool
  number_of_hash_functions : Int
deriving DecidableEq, Repr

namespace bloom_filter

/-- `MAX_SIZE = std::numeric_limits<std::uint64_t>::max()` (line 185). -/
def MAX_SIZE : Nat := 2 ^ 64 - 1

/-- The constructor `bloom_filter(std::size_t size, std::int32_t number_of_hash_functions)`
(lines 188-195): the members are initialised, then the two checks throw. -/
def new (size : Nat) (number_of_hash_functions : Int) : Except String bloom_filter :=
  let self : bloom_filter := ⟨List.replicate size false, number_of_hash_functions⟩
  if size = 0 then
    Except.error "size must be greater than 0"
  else if number_of_hash_functions ≤ 0 then
    Except.error "number_of_hash_functions must be greater than 0"
  else
    Except.ok self

/-- The loop of `add` (lines 227-233), `i` being the number of iterations still to run:
`index = (h1 & MAX_SIZE) % bits.size(); changed |= !bits[index]; bits[index] = true;
h1 += h2`. -/
def add_loop : Nat → Nat → Nat → List Bool → Bool → Option (Bool × List Bool)
  | 0, _, _, bits, changed => some (changed, bits)
  | i + 1, h1, h2, bits, changed =>
    if bits.length = 0 then none
    else
      let index := (h1 &&& MAX_SIZE) % bits.length
      let changed := changed || !(bits.getD index false)
      let bits := bits.set index true
      add_loop i ((h1 + h2) % 2 ^ 64) h2 bits changed

/-- The member function `bool add(const T& value)` (lines 221-235): the returned flag and
the filter after the call. -/
def add {T : Type} (hash : T → Nat × Nat) (self : bloom_filter) (value : T) :
    Option (Bool × bloom_filter) :=
  let (h1, h2) := hash value
  if self.number_of_hash_functions < 0 then none
  else
    match add_loop self.number_of_hash_functions.toNat h1 h2 self.bits false with
    | none => none
    | some (changed, bits) => some (changed, { self with bits := bits })

/-- The loop of `exists` (lines 242-249), `i` being the number of iterations still to run:
the first probed bit that is false returns false. -/
def exists_loop : Nat → Nat → Nat → List Bool → Option Bool
  | 0, _, _, _ => some true
  | i + 1, h1, h2, bits =>
    if bits.length = 0 then none
    else
      let index := (h1 &&& MAX_SIZE) % bits.length
      if !(bits.getD index false) then some false
      else exists_loop i ((h1 + h2) % 2 ^ 64) h2 bits

/-- The member function `bool exists(const T& value) const` (lines 237-250).  It is
`const`: the filter is not part of the result. -/
def «exists» {T : Type} (hash : T → Nat × Nat) (self : bloom_filter) (value : T) :
    Option Bool :=
  let (h1, h2) := hash value
  if self.number_of_hash_functions < 0 then none
  else exists_loop self.number_of_hash_functions.toNat h1 h2 self.bits

/-- The member function `void reset()` (lines 252-255): `std::fill` writes false to every
position of `bits`. -/
def reset (self : bloom_filter) : bloom_filter :=
  { self with bits := self.bits.map (fun _ => false) }

/-- The indices visited by the loops of `add` and `exists` when no early return happens:
`(h1 & MAX_SIZE) % m`, then `h1 += h2`, `i` times. -/
def probes : Nat → Nat → Nat → Nat → List Nat
  | 0, _, _, _ => []
  | i + 1, h1, h2, m => (h1 &&& MAX_SIZE) % m :: probes i ((h1 + h2) % 2 ^ 64) h2 m

/-- The `k` bit indices derived for `value` in the filter `self`. -/
def indices {T : Type} (hash : T → Nat × Nat) (self : bloom_filter) (value : T) : List Nat :=
  probes self.number_of_hash_functions.toNat (hash value).1 (hash value).2 self.bits.length

/-- A call of one of the two member functions that take a value; `reset` is not among
them. -/
inductive call (T : Type) where
  | add (value : T)
  | «exists» (value : T)

/-- A finite sequence of `add` and `exists` calls on one filter, run from left to right,
the returned booleans being dropped.  `exists` is `const` and leaves the filter as it is. -/
def run {T : Type} (hash : T → Nat × Nat) : bloom_filter → List (call T) → Option bloom_filter
  | self, [] => some self
  | self, call.add value :: rest =>
    match add hash self value with
    | none => none
    | some (_, self') => run hash self' rest
  | self, call.exists value :: rest =>
    match «exists» hash self value with
    | none => none
    | some _ => run hash self rest

end bloom_filter

/-! ## Parameter sizing

The two sizing functions compute in `double`, the binary64 format.  The embedding keeps the
structure of IEEE arithmetic that decides their results: the infinities and NaN that a
division by zero or a logarithm produces, `std::max` through `operator<`, the truncating
conversions to integer types and their range.  A finite double is an element of an ordered
field `F`.  Every operation that rounds in the source rounds here: the conversion of an
integer, a product and a quotient give `rnd` of their exact result, where `rnd : F → F` is
the rounding of the format, and `std::log` on a positive finite double is `ln : F → F`, the
function of the C library.  Both are parameters, as they belong to the machine and to the
library and not to this repository.  The theorems take `F := ℝ` and assume of `rnd` and
`ln` what `dbl.rounds_to_nearest`, `log_accurate` and `log_monotone` say; exact arithmetic,
`rnd := id` with `ln := Real.log`, is one instance.

Not modelled: a finite operation that overflows to an infinity or underflows to a
subnormal, which does not happen on the inputs that the theorems cover (64-bit integers
and doubles `p` with `0 < p < 1`: the intermediate values are zero or lie between
`2^(-64)` and `2^75` in magnitude), and the sign of a zero: the only divisor that can be
zero in the source is converted from the integer `0`, which is `+0.0`.
-/

/-- Values of type `double`: finite ones, the two infinities, and NaN. -/
inductive dbl (F : Type) where
  | fin (x : F)
  | pinf
  | ninf
  | nan

namespace dbl

variable {F : Type} [LinearOrderedField F] [FloorRing F]

/-- Conversion of a `std::int64_t` to `double`: the integer, rounded. -/
def of_int64 (rnd : F → F) (i : Int) : dbl F := fin (rnd (i : F))

/-- The test `p == 0`. -/
def is_zero : dbl F → Bool
  | fin x => decide (x = 0)
  | _ => false

/-- The product `a * b` of two doubles: the exact product of finite values, rounded. -/
def mul (rnd : F → F) : dbl F → dbl F → dbl F
  | fin x, fin y => fin (rnd (x * y))
  | fin x, pinf => if 0 < x then pinf else if x < 0 then ninf else nan
  | fin x, ninf => if 0 < x then ninf else if x < 0 then pinf else nan
  | pinf, fin y => if 0 < y then pinf else if y < 0 then ninf else nan
  | ninf, fin y => if 0 < y then ninf else if y < 0 then pinf else nan
  | pinf, pinf => pinf
  | pinf, ninf => ninf
  | ninf, pinf => ninf
  | ninf, ninf => pinf
  | nan, _ => nan
  | _, nan => nan

/-- The quotient `a / b` of two doubles: the exact quotient of finite values, rounded; a
zero divisor is `+0.0`. -/
def div (rnd : F → F) : dbl F → dbl F → dbl F
  | fin x, fin y =>
    if y = 0 then (if 0 < x then pinf else if x < 0 then ninf else nan)
    else fin (rnd (x / y))
  | fin _, pinf => fin 0
  | fin _, ninf => fin 0
  | pinf, fin y => if 0 ≤ y then pinf else ninf
  | ninf, fin y => if 0 ≤ y then ninf else pinf
  | pinf, pinf => nan
  | pinf, ninf => nan
  | ninf, pinf => nan
  | ninf, ninf => nan
  | nan, _ => nan
  | _, nan => nan

/-- The library function `std::log`: `ln` on positive finite doubles, `-inf` at zero, NaN
on negative arguments. -/
def log (ln : F → F) : dbl F → dbl F
  | fin x => if 0 < x then fin (ln x) else if x = 0 then ninf else nan
  | pinf => pinf
  | ninf => nan
  | nan => nan

/-- The nearest integer of a finite value, halfway cases away from zero. -/
def round_half_away (x : F) : Int := if 0 ≤ x then ⌊x + 1 / 2⌋ else ⌈x - 1 / 2⌉

/-- The integer part of a finite value: rounding toward zero. -/
def trunc (x : F) : Int := if 0 ≤ x then ⌊x⌋ else ⌈x⌉

/-- The library function `std::round`: to the nearest integer, halfway cases away from
zero.  Its result is a double, so nothing is rounded a second time. -/
def round : dbl F → dbl F
  | fin x => fin (round_half_away x : F)
  | pinf => pinf
  | ninf => ninf
  | nan => nan

/-- The comparison `a < b`, false as soon as one side is NaN. -/
def lt : dbl F → dbl F → Bool
  | fin x, fin y => decide (x < y)
  | fin _, pinf => true
  | ninf, fin _ => true
  | ninf, pinf => true
  | _, _ => false

/-- The library function `std::max(a, b)`, which is `(a < b) ? b : a`. -/
def max (a b : dbl F) : dbl F := if lt a b then b else a

/-- The conversion `static_cast<std::int32_t>(x)`: truncation toward zero, and no defined
result when the truncated value is not an `int32_t` (or `x` is not finite). -/
def to_int32 : dbl F → Option Int
  | fin x =>
    if -(2 ^ 31 : F) - 1 < x ∧ x < 2 ^ 31 then some (trunc x) else none
  | _ => none

/-- The conversion `static_cast<std::size_t>(x)`: truncation toward zero, and no defined
result when the truncated value is not a `size_t` (or `x` is not finite). -/
def to_size_t : dbl F → Option Nat
  | fin x => if -1 < x ∧ x < 2 ^ 64 then some ⌊x⌋₊ else none
  | _ => none

/-- The constant `std::numeric_limits<double>::min()`, the smallest positive normal
double. -/
def DBL_MIN : F := 1 / 2 ^ 1022

/-- What the theorems assume of the rounding `rnd` of binary64, all of it true of rounding
to nearest: it is monotone, it keeps zero, and in the range of the normal doubles its
relative error is at most `2^(-53)`. -/
def rounds_to_nearest (rnd : F → F) : Prop :=
  Monotone rnd ∧ rnd 0 = 0
    ∧ ∀ x, 1 / 2 ^ 1022 ≤ |x| → |x| ≤ 2 ^ 1023 → |rnd x - x| ≤ 1 / 2 ^ 53 * |x|

end dbl

namespace bloom_filter

variable {F : Type} [LinearOrderedField F] [FloorRing F]

/-- The function `optimal_number_of_hash_functions` (lines 258-262). -/
def optimal_number_of_hash_functions (rnd ln : F → F)
    (expected_insertions total_number_of_bits : Int) : Option Int :=
  let n := expected_insertions
  let m := total_number_of_bits
  dbl.to_int32
    (dbl.max (dbl.fin 1)
      (dbl.round
        (dbl.mul rnd (dbl.div rnd (dbl.of_int64 rnd m) (dbl.of_int64 rnd n))
          (dbl.log ln (dbl.fin 2)))))

/-- The function `optimal_number_of_bits` (lines 264-269).  The negation `-n` is done in
`std::int64_t`, where the least value has no negation. -/
def optimal_number_of_bits (rnd ln : F → F)
    (expected_insertions : Int) (expected_false_positive_probability : dbl F) : Option Nat :=
  let n := expected_insertions
  let p := expected_false_positive_probability
  let p := if dbl.is_zero p then dbl.fin dbl.DBL_MIN else p
  if n = -(2 : Int) ^ 63 then none
  else
    dbl.to_size_t
      (dbl.div rnd (dbl.mul rnd (dbl.of_int64 rnd (-n)) (dbl.log ln p))
        (dbl.mul rnd (dbl.log ln (dbl.fin 2)) (dbl.log ln (dbl.fin 2))))

/-- The exact quotient `-n * ln p / (ln 2)^2` of the sizing formula for the number of
bits. -/
def bits_quotient (ln : F → F) (n : Int) (p : F) : F := -(n : F) * ln p / (ln 2) ^ 2

/-- The quotient as `optimal_number_of_bits` evaluates it on a positive finite `p`, with
its six roundings and its three calls of the library logarithm. -/
def bits_quotient_computed (rnd ln : F → F) (n : Int) (p : F) : F :=
  rnd (rnd (rnd ((-n : Int) : F) * ln p) / rnd (ln 2 * ln 2))

/-- The exact product `m / n * ln 2` of the sizing formula for the number of hash
functions. -/
def hash_product (ln : F → F) (n m : Int) : F := (m : F) / (n : F) * ln 2

/-- The product as `optimal_number_of_hash_functions` evaluates it when `n` is not zero. -/
def hash_product_computed (rnd ln : F → F) (n m : Int) : F :=
  rnd (rnd (rnd (m : F) / rnd (n : F)) * ln 2)

/-- What the theorems assume of the accuracy of the library logarithm `ln`: a relative
error of at most `2^(-52)`, which is one unit in the last place. -/
def log_accurate (ln : ℝ → ℝ) : Prop :=
  ∀ x, 0 < x → |ln x - Real.log x| ≤ 1 / 2 ^ 52 * |Real.log x|

/-- The library logarithm `ln` is monotone on the positive doubles. -/
def log_monotone (ln : ℝ → ℝ) : Prop := ∀ x y, 0 < x → x ≤ y → ln x ≤ ln y

end bloom_filter

/-! ## The convenience constructor, copy and move -/

namespace bloom_filter

variable {F : Type} [LinearOrderedField F] [FloorRing F]

/-- The conversion of a `std::size_t` to the `std::int64_t` parameter of
`optimal_number_of_hash_functions`: values from `2^63` on wrap to negative ones. -/
def size_t_to_int64 (x : Nat) : Int :=
  if x % 2 ^ 64 < 2 ^ 63 then ((x % 2 ^ 64 : Nat) : Int) else ((x % 2 ^ 64 : Nat) : Int) - 2 ^ 64

/-- The function `make_bloom_filter` (lines 271-278).  The result is `none` where one of
the two sizing functions has no defined result, and otherwise what the constructor does. -/
def make_bloom_filter (rnd ln : F → F) (expected_insertions : Int)
    (expected_false_positive_probability : dbl F) : Option (Except String bloom_filter) :=
  let expected_insertions := if expected_insertions = 0 then 1 else expected_insertions
  match optimal_number_of_bits rnd ln expected_insertions
      expected_false_positive_probability with
  | none => none
  | some bits_length =>
    match optimal_number_of_hash_functions rnd ln expected_insertions
        (size_t_to_int64 bits_length) with
    | none => none
    | some number_of_hash_functions => some (new bits_length number_of_hash_functions)

/-- The copy assignment operator (lines 200-208), the value of `*this` after it.  When
`this` and `that` are the same object nothing is assigned, and the value is the same. -/
def copy_assign (self that : bloom_filter) : bloom_filter :=
  let self := { self with bits := that.bits }
  { self with number_of_hash_functions := that.number_of_hash_functions }

/-- The copy constructor (line 199): the members are default-initialised, an empty vector
and an `int` of indeterminate value `uninit`, and then `*this = that`. -/
def copy_construct (uninit : Int) (that : bloom_filter) : bloom_filter :=
  copy_assign ⟨[], uninit⟩ that

/-- The move assignment operator (lines 210-219) on two distinct objects: the values of
`*this` and of `that` after it.  The vector that was moved from holds `residue`, which the
library leaves unspecified. -/
def move_assign (residue : List Bool) (self that : bloom_filter) :
    bloom_filter × bloom_filter :=
  let self := { self with bits := that.bits }
  let that := { that with bits := residue }
  let self := { self with number_of_hash_functions := that.number_of_hash_functions }
  let that := { that with number_of_hash_functions := 0 }
  (self, that)

/-- The move constructor (line 209): the members are default-initialised and then
`*this = std::move(that)`. -/
def move_construct (residue : List Bool) (uninit : Int) (that : bloom_filter) :
    bloom_filter × bloom_filter :=
  move_assign residue ⟨[], uninit⟩ that

/-- Two filter objects of one program: the source of a copy and the copy. -/
structure objects where
  src : bloom_filter
  dst : bloom_filter
deriving DecidableEq

/-- The statement `bloom_filter<T> dst = src;`, as in line 80 of `program.cpp`. -/
def objects.copy (uninit : Int) (src : bloom_filter) : objects :=
  ⟨src, copy_construct uninit src⟩

/-- A sequence of calls `dst.add(value)`, the returned booleans being dropped. -/
def objects.add_dst {T : Type} (hash : T → Nat × Nat) : objects → List T → Option objects
  | s, [] => some s
  | s, value :: rest =>
    match add hash s.dst value with
    | none => none
    | some (_, dst) => objects.add_dst hash { s with dst := dst } rest

end bloom_filter

/-! ## The mixing hash

A byte view `(key, len)` is a list of bytes together with the length that is passed; a
read beyond the list has no result, so that a hash that returns has read inside the view
only.  `getblock64` reads memory in the byte order of the machine, taken as little-endian.
Lengths are natural numbers: a negative `len` is not modelled. -/

namespace bloom_filter
namespace internal

/-- The function `rotate_left` (lines 51-54) on `std::uint64_t`. -/
def rotate_left (val n : Nat) : Nat := ((val <<< n) % 2 ^ 64) ||| (val >>> (64 - n))

/-- The function `getint64` (lines 61-64): the byte `p[i]`, widened.  Reading past the end
of the byte view `p` has no result. -/
def getint64 (p : List Nat) (i : Nat) : Option Nat :=
  match p[i]? with
  | none => none
  | some b => some (b % 256)

/-- The function `getblock64` (lines 56-59): the `i`-th 64-bit word of the byte view `p`,
which is the bytes `8 * i .. 8 * i + 7`, the least significant first. -/
def getblock64 (p : List Nat) (i : Nat) : Option Nat :=
  match getint64 p (8 * i), getint64 p (8 * i + 1), getint64 p (8 * i + 2),
      getint64 p (8 * i + 3), getint64 p (8 * i + 4), getint64 p (8 * i + 5),
      getint64 p (8 * i + 6), getint64 p (8 * i + 7) with
  | some b0, some b1, some b2, some b3, some b4, some b5, some b6, some b7 =>
    some (b0 ||| (b1 <<< 8) ||| (b2 <<< 16) ||| (b3 <<< 24) ||| (b4 <<< 32) ||| (b5 <<< 40)
      ||| (b6 <<< 48) ||| (b7 <<< 56))
  | _, _, _, _, _, _, _, _ => none

/-- The function `fmix64` (lines 66-74). -/
def fmix64 (k : Nat) : Nat :=
  let k := k ^^^ (k >>> 33)
  let k := (k * 0xff51afd7ed558ccd) % 2 ^ 64
  let k := k ^^^ (k >>> 33)
  let k := (k * 0xc4ceb9fe1a85ec53) % 2 ^ 64
  let k := k ^^^ (k >>> 33)
  k

/-- The function `swap_endianess` (lines 76-87). -/
def swap_endianess (val : Nat) : Nat :=
  let b0 := ((val &&& 0x00000000000000ff) <<< 56) % 2 ^ 64
  let b1 := ((val &&& 0x000000000000ff00) <<< 40) % 2 ^ 64
  let b2 := ((val &&& 0x0000000000ff0000) <<< 24) % 2 ^ 64
  let b3 := ((val &&& 0x00000000ff000000) <<< 8) % 2 ^ 64
  let b4 := (val &&& 0x000000ff00000000) >>> 8
  let b5 := (val &&& 0x0000ff0000000000) >>> 24
  let b6 := (val &&& 0x00ff000000000000) >>> 40
  let b7 := (val &&& 0xff00000000000000) >>> 56
  b0 ||| b1 ||| b2 ||| b3 ||| b4 ||| b5 ||| b6 ||| b7

/-- The constant `c1` of `murmur3_128` (line 94). -/
def c1 : Nat := 0x87c37b91114253d5

/-- The constant `c2` of `murmur3_128` (line 95). -/
def c2 : Nat := 0x4cf5ad432745937f

/-- The body loop of `murmur3_128` (lines 103-111): `remaining` iterations from block `i`
on, with the accumulators `h1`, `h2`. -/
def body_loop (data : List Nat) : Nat → Nat → Nat → Nat → Option (Nat × Nat)
  | 0, _, h1, h2 => some (h1, h2)
  | remaining + 1, i, h1, h2 =>
    match getblock64 data (i * 2 + 0), getblock64 data (i * 2 + 1) with
    | some k1, some k2 =>
      let k1 := (k1 * c1) % 2 ^ 64
      let k1 := rotate_left k1 31
      let k1 := (k1 * c2) % 2 ^ 64
      let h1 := h1 ^^^ k1
      let h1 := rotate_left h1 27
      let h1 := (h1 + h2) % 2 ^ 64
      let h1 := (h1 * 5 + 0x52dce729) % 2 ^ 64
      let k2 := (k2 * c2) % 2 ^ 64
      let k2 := rotate_left k2 33
      let k2 := (k2 * c1) % 2 ^ 64
      let h2 := h2 ^^^ k2
      let h2 := rotate_left h2 31
      let h2 := (h2 + h1) % 2 ^ 64
      let h2 := (h2 * 5 + 0x38495ab5) % 2 ^ 64
      body_loop data remaining (i + 1) h1 h2
    | _, _ => none

/-- The labels `case 15` .. `case 9` of the tail switch (lines 120-126), each with the
shift of its byte: `case c: k2 ^= getint64(tail, c - 1) << shift`. -/
def k2_cases : List (Nat × Nat) :=
  [(15, 48), (14, 40), (13, 32), (12, 24), (11, 16), (10, 8), (9, 0)]

/-- The labels `case 8` .. `case 1` of the tail switch (lines 129-136). -/
def k1_cases : List (Nat × Nat) :=
  [(8, 56), (7, 48), (6, 40), (5, 32), (4, 24), (3, 16), (2, 8), (1, 0)]

/-- A run of fall-through labels of the tail switch entered with `len & 15 = r`: the
statement of the label `c` is executed when `c ≤ r`.  The tail starts at the byte `off` of
the view. -/
def tail_bytes (data : List Nat) (off r : Nat) : List (Nat × Nat) → Nat → Option Nat
  | [], k => some k
  | (c, shift) :: rest, k =>
    if c ≤ r then
      match getint64 data (off + (c - 1)) with
      | none => none
      | some b => tail_bytes data off r rest (k ^^^ (b <<< shift))
    else tail_bytes data off r rest k

/-- The function `murmur3_128` (lines 90-155) on a byte view `key` and a length
`len ≥ 0`. -/
def murmur3_128 (key : List Nat) (len : Nat) (seed : Nat) (endianess_reverse : Bool) :
    Option (Nat × Nat) :=
  let data := key
  let nblocks := len / 16
  match body_loop data nblocks 0 seed seed with
  | none => none
  | some (h1, h2) =>
    let off := nblocks * 16
    let r := len &&& 15
    match tail_bytes data off r k2_cases 0 with
    | none => none
    | some k2 =>
      let h2 :=
        if 9 ≤ r then h2 ^^^ ((rotate_left ((k2 * c2) % 2 ^ 64) 33 * c1) % 2 ^ 64) else h2
      match tail_bytes data off r k1_cases 0 with
      | none => none
      | some k1 =>
        let h1 :=
          if 1 ≤ r then h1 ^^^ ((rotate_left ((k1 * c1) % 2 ^ 64) 31 * c2) % 2 ^ 64) else h1
        let h1 := h1 ^^^ len
        let h2 := h2 ^^^ len
        let h1 := (h1 + h2) % 2 ^ 64
        let h2 := (h2 + h1) % 2 ^ 64
        let h1 := fmix64 h1
        let h2 := fmix64 h2
        let h1 := (h1 + h2) % 2 ^ 64
        let h2 := (h2 + h1) % 2 ^ 64
        if endianess_reverse then some (swap_endianess h1, swap_endianess h2)
        else some (h1, h2)

/-- The function `default_hasher<std::string>::hash` (lines 164-179): the string is its
sequence of bytes, the view is `c_str()` with length `size()`, the seed is 4011. -/
def default_hasher_string_hash (value : List Nat) : Nat × Nat :=
  (murmur3_128 value value.length 4011 false).getD (0, 0)

end internal
end bloom_filter

/-! ## The strings of the demonstration

A `std::string` is the list of its bytes. -/

namespace program

/-- The string `"hello"` of `program.cpp`. -/
def hello : List Nat := [104, 101, 108, 108, 111]

/-- The string `"world"` of `program.cpp`. -/
def world : List Nat := [119, 111, 114, 108, 100]

/-- The string `"C++"` of `program.cpp`. -/
def cpp : List Nat := [67, 43, 43]

end program

namespace bloom_filter

/-! ## Auxiliary facts about the bit vector and the two loops -/

theorem getD_set_true (bits : List Bool) (i j : Nat) :
    (bits.set i true).getD j false
      = (bits.getD j false || (decide (j = i) && decide (i < bits.length))) := by
  simp only [List.getD_eq_getElem?_getD, List.getElem?_set]
  by_cases hji : j = i
  · subst hji
    by_cases hlt : j < bits.length
    · simp [hlt]
    · simp [hlt, List.getElem?_eq_none (Nat.le_of_not_lt hlt)]
  · have : ¬ i = j := fun h => hji h.symm
    simp [hji, this]

theorem probes_lt (i h1 h2 m : Nat) (hm : 0 < m) : ∀ j ∈ probes i h1 h2 m, j < m := by
  induction i generalizing h1 with
  | zero => simp [probes]
  | succ i ih =>
    intro j hj
    simp only [probes, List.mem_cons] at hj
    rcases hj with rfl | hj
    · exact Nat.mod_lt _ hm
    · exact ih _ j hj

theorem probes_length (i h1 h2 m : Nat) : (probes i h1 h2 m).length = i := by
  induction i generalizing h1 with
  | zero => simp [probes]
  | succ i ih => simp [probes, ih]

theorem add_loop_spec (i h1 h2 : Nat) (bits : List Bool) (c : Bool) (hm : 0 < bits.length) :
    ∃ bits', add_loop i h1 h2 bits c
        = some (c || (probes i h1 h2 bits.length).any (fun j => !(bits.getD j false)), bits')
      ∧ bits'.length = bits.length
      ∧ ∀ j, bits'.getD j false
          = (bits.getD j false || decide (j ∈ probes i h1 h2 bits.length)) := by
  induction i generalizing h1 bits c with
  | zero => exact ⟨bits, by simp [add_loop, probes]⟩
  | succ i ih =>
    have hlen : (bits.set ((h1 &&& MAX_SIZE) % bits.length) true).length = bits.length :=
      List.length_set ..
    have hm' : 0 < (bits.set ((h1 &&& MAX_SIZE) % bits.length) true).length := by
      rw [hlen]; exact hm
    obtain ⟨bits', hrun, hl, hbits⟩ :=
      ih ((h1 + h2) % 2 ^ 64) (bits.set ((h1 &&& MAX_SIZE) % bits.length) true)
        (c || !(bits.getD ((h1 &&& MAX_SIZE) % bits.length) false)) hm'
    have hidx : (h1 &&& MAX_SIZE) % bits.length < bits.length := Nat.mod_lt _ hm
    refine ⟨bits', ?_, by rw [hl, hlen], ?_⟩
    · simp only [add_loop, Nat.ne_of_gt hm, if_false]
      rw [hrun, hlen]
      simp only [probes, List.any_cons]
      congr 2
      cases hb : bits.getD ((h1 &&& MAX_SIZE) % bits.length) false with
      | false => simp
      | true =>
        have hsame : ∀ j, (bits.set ((h1 &&& MAX_SIZE) % bits.length) true).getD j false
            = bits.getD j false := by
          intro j
          rw [getD_set_true]
          by_cases hj : j = (h1 &&& MAX_SIZE) % bits.length
          · rw [hj, hb, Bool.true_or]
          · simp only [hj, decide_False, Bool.false_and, Bool.or_false]
        have hfun : (fun j => !(bits.set ((h1 &&& MAX_SIZE) % bits.length) true).getD j false)
            = (fun j => !(bits.getD j false)) := funext (fun j => by rw [hsame j])
        rw [hfun]
        simp only [Bool.not_true, Bool.or_false, Bool.false_or]
    · intro j
      rw [hbits j, hlen, getD_set_true]
      simp only [probes, List.mem_cons, hidx, decide_True, Bool.and_true]
      by_cases hj : j = (h1 &&& MAX_SIZE) % bits.length
      · simp [hj]
      · simp [hj]

theorem exists_loop_spec (i h1 h2 : Nat) (bits : List Bool) (hm : 0 < bits.length) :
    exists_loop i h1 h2 bits
      = some ((probes i h1 h2 bits.length).all (fun j => bits.getD j false)) := by
  induction i generalizing h1 with
  | zero => simp [exists_loop, probes]
  | succ i ih =>
    simp only [exists_loop, Nat.ne_of_gt hm, if_false, probes, List.all_cons]
    cases hb : bits.getD ((h1 &&& MAX_SIZE) % bits.length) false with
    | false => simp
    | true => simp [ih]

theorem add_spec {T : Type} (hash : T → Nat × Nat) (f : bloom_filter) (v : T)
    (hm : 0 < f.bits.length) (hk : 0 ≤ f.number_of_hash_functions) :
    ∃ bits', add hash f v
        = some ((indices hash f v).any (fun j => !(f.bits.getD j false)),
            ⟨bits', f.number_of_hash_functions⟩)
      ∧ bits'.length = f.bits.length
      ∧ ∀ j, bits'.getD j false = (f.bits.getD j false || decide (j ∈ indices hash f v)) := by
  obtain ⟨bits', hrun, hl, hb⟩ :=
    add_loop_spec f.number_of_hash_functions.toNat (hash v).1 (hash v).2 f.bits false hm
  refine ⟨bits', ?_, hl, hb⟩
  unfold add
  simp only [not_lt.mpr hk, if_false, hrun, indices, Bool.false_or]

theorem exists_spec {T : Type} (hash : T → Nat × Nat) (f : bloom_filter) (v : T)
    (hm : 0 < f.bits.length) (hk : 0 ≤ f.number_of_hash_functions) :
    «exists» hash f v = some ((indices hash f v).all (fun j => f.bits.getD j false)) := by
  unfold «exists»
  simp only [not_lt.mpr hk, if_false, indices]
  exact exists_loop_spec _ _ _ _ hm

theorem run_spec {T : Type} (hash : T → Nat × Nat) (cs : List (call T)) (f : bloom_filter)
    (hm : 0 < f.bits.length) (hk : 0 ≤ f.number_of_hash_functions) :
    ∃ f', run hash f cs = some f'
      ∧ f'.number_of_hash_functions = f.number_of_hash_functions
      ∧ f'.bits.length = f.bits.length
      ∧ ∀ j, f.bits.getD j false = true → f'.bits.getD j false = true := by
  induction cs generalizing f with
  | nil => exact ⟨f, rfl, rfl, rfl, fun _ h => h⟩
  | cons c cs ih =>
    cases c with
    | add w =>
      obtain ⟨bits', hadd, hl, hb⟩ := add_spec hash f w hm hk
      obtain ⟨f', hrun, hk', hl', hmono⟩ :=
        ih ⟨bits', f.number_of_hash_functions⟩ (by rw [hl]; exact hm) hk
      refine ⟨f', ?_, hk', by rw [hl', hl], ?_⟩
      · simp only [run, hadd, hrun]
      · intro j hj
        apply hmono
        show bits'.getD j false = true
        rw [hb j, hj, Bool.true_or]
    | «exists» w =>
      obtain ⟨f', hrun, hk', hl', hmono⟩ := ih f hm hk
      refine ⟨f', ?_, hk', hl', hmono⟩
      simp only [run, exists_spec hash f w hm hk, hrun]

/-- Once every bit derived for `v` is set, `add v` reports no change and is the identity. -/
theorem add_of_all_set {T : Type} (hash : T → Nat × Nat) (f : bloom_filter) (v : T)
    (hm : 0 < f.bits.length) (hk : 0 ≤ f.number_of_hash_functions)
    (hset : ∀ j ∈ indices hash f v, f.bits.getD j false = true) :
    add hash f v = some (false, f) := by
  obtain ⟨bits', hadd, hl, hb⟩ := add_spec hash f v hm hk
  have hbits : bits' = f.bits := by
    apply List.ext_getElem?
    intro j
    have h1 := hb j
    by_cases hj : j ∈ indices hash f v
    · rw [hset j hj] at h1
      simp only [Bool.true_or] at h1
      have h2 := hset j hj
      have hjlt : j < f.bits.length := probes_lt _ _ _ _ hm j hj
      rw [List.getD_eq_getElem?_getD] at h1 h2
      rw [List.getElem?_eq_getElem (by rw [hl]; exact hjlt)] at h1 ⊢
      rw [List.getElem?_eq_getElem hjlt] at h2 ⊢
      simp only [Option.getD_some] at h1 h2
      rw [h1, h2]
    · simp only [hj, decide_False, Bool.or_false] at h1
      by_cases hjlt : j < f.bits.length
      · rw [List.getD_eq_getElem?_getD, List.getD_eq_getElem?_getD] at h1
        rw [List.getElem?_eq_getElem (by rw [hl]; exact hjlt)] at h1 ⊢
        rw [List.getElem?_eq_getElem hjlt] at h1 ⊢
        simp only [Option.getD_some] at h1
        rw [h1]
      · rw [List.getElem?_eq_none (by rw [hl]; exact Nat.le_of_not_lt hjlt),
          List.getElem?_eq_none (Nat.le_of_not_lt hjlt)]
  have hany : (indices hash f v).any (fun j => !(f.bits.getD j false)) = false := by
    rw [List.any_eq_false]
    intro j hj
    rw [hset j hj]
    decide
  rw [hadd, hany, hbits]

theorem indices_congr {T : Type} (hash : T → Nat × Nat) (f g : bloom_filter) (v : T)
    (hk : g.number_of_hash_functions = f.number_of_hash_functions)
    (hl : g.bits.length = f.bits.length) : indices hash g v = indices hash f v := by
  unfold indices
  rw [hk, hl]

theorem exists_of_all_set {T : Type} (hash : T → Nat × Nat) (f : bloom_filter) (v : T)
    (hm : 0 < f.bits.length) (hk : 0 ≤ f.number_of_hash_functions)
    (hset : ∀ j ∈ indices hash f v, f.bits.getD j false = true) :
    «exists» hash f v = some true := by
  rw [exists_spec hash f v hm hk]
  congr 1
  rw [List.all_eq_true]
  exact hset

theorem getD_replicate_false (m j : Nat) : (List.replicate m false).getD j false = false := by
  rw [List.getD_eq_getElem?_getD]
  by_cases hj : j < m
  · rw [List.getElem?_eq_getElem (by rw [List.length_replicate]; exact hj)]
    simp
  · rw [List.getElem?_eq_none (by rw [List.length_replicate]; exact Nat.le_of_not_lt hj)]
    rfl

theorem reset_bits (f : bloom_filter) :
    (reset f).bits = List.replicate f.bits.length false := by
  unfold reset
  show f.bits.map (fun _ => false) = List.replicate f.bits.length false
  induction f.bits with
  | nil => rfl
  | cons b bs ih => simp [List.replicate_succ, ih]

/-- With every bit false and at least one probe, `exists` answers false. -/
theorem exists_of_all_clear {T : Type} (hash : T → Nat × Nat) (f : bloom_filter) (v : T)
    (hm : 0 < f.bits.length) (hk : 1 ≤ f.number_of_hash_functions)
    (hclear : ∀ j, f.bits.getD j false = false) :
    «exists» hash f v = some false := by
  rw [exists_spec hash f v hm (by omega)]
  congr 1
  rw [List.all_eq_false]
  obtain ⟨n, hn⟩ : ∃ n, f.number_of_hash_functions.toNat = n + 1 :=
    ⟨f.number_of_hash_functions.toNat - 1, by omega⟩
  refine ⟨((hash v).1 &&& MAX_SIZE) % f.bits.length, ?_, ?_⟩
  · unfold indices
    rw [hn]
    simp [probes]
  · rw [hclear]
    decide

/-! ## The filter: `add`, `exists`, `reset` and the constructor -/

/-- C1. No false negatives: on a filter with `m ≥ 1` bits and `k ≥ 1` probes, `add v`
returns, `exists v` is true right after it, and `exists v` is still true after any finite
sequence `cs` of further `add` and `exists` calls on arbitrary values (`reset` is not a
call of such a sequence). -/
theorem no_false_negatives {T : Type} (hash : T → Nat × Nat) (f : bloom_filter) (v : T)
    (cs : List (call T)) (hm : 1 ≤ f.bits.length) (hk : 1 ≤ f.number_of_hash_functions) :
    ∃ r f1 f2, add hash f v = some (r, f1) ∧ «exists» hash f1 v = some true
      ∧ run hash f1 cs = some f2 ∧ «exists» hash f2 v = some true := by
  have hk0 : 0 ≤ f.number_of_hash_functions := by omega
  obtain ⟨bits', hadd, hl, hb⟩ := add_spec hash f v hm hk0
  have hm1 : 0 < (bloom_filter.mk bits' f.number_of_hash_functions).bits.length := by
    show 0 < bits'.length
    rw [hl]; exact hm
  have hi1 : indices hash ⟨bits', f.number_of_hash_functions⟩ v = indices hash f v :=
    indices_congr hash f _ v rfl hl
  have hset1 : ∀ j ∈ indices hash ⟨bits', f.number_of_hash_functions⟩ v,
      (bloom_filter.mk bits' f.number_of_hash_functions).bits.getD j false = true := by
    intro j hj
    rw [hi1] at hj
    show bits'.getD j false = true
    rw [hb j, decide_eq_true hj, Bool.or_true]
  obtain ⟨f2, hrun, hk2, hl2, hmono⟩ := run_spec hash cs _ hm1 hk0
  refine ⟨_, _, f2, hadd, exists_of_all_set hash _ v hm1 hk0 hset1, hrun, ?_⟩
  apply exists_of_all_set hash f2 v (by rw [hl2]; exact hm1) (by rw [hk2]; exact hk0)
  intro j hj
  rw [indices_congr hash _ f2 v hk2 hl2] at hj
  exact hmono j (hset1 j hj)

/-- An instance of C1: three bits, two probes, and a run that adds 7 and queries 5. -/
theorem no_false_negatives_witness :
    1 ≤ (bloom_filter.mk [false, false, false] 2).bits.length
      ∧ 1 ≤ (bloom_filter.mk [false, false, false] 2).number_of_hash_functions
      ∧ ∃ r f1 f2, add (fun n : Nat => (n, 1)) ⟨[false, false, false], 2⟩ 5 = some (r, f1)
          ∧ «exists» (fun n : Nat => (n, 1)) f1 5 = some true
          ∧ run (fun n : Nat => (n, 1)) f1 [call.add 7, call.exists 5] = some f2
          ∧ «exists» (fun n : Nat => (n, 1)) f2 5 = some true :=
  ⟨by decide, by decide,
    no_false_negatives (fun n : Nat => (n, 1)) ⟨[false, false, false], 2⟩ 5
      [call.add 7, call.exists 5] (by decide) (by decide)⟩

/-- C2. On a filter with `m ≥ 1` and `k ≥ 1`, `add v` returns, and its flag is true exactly
when one of the bits derived for `v` was false before the call, which is exactly when
`exists v` was false before the call.  Probes that land on the same index are included:
nothing is assumed about the derived indices. -/
theorem add_returns_changed {T : Type} (hash : T → Nat × Nat) (f : bloom_filter) (v : T)
    (hm : 1 ≤ f.bits.length) (hk : 1 ≤ f.number_of_hash_functions) :
    ∃ r f1, add hash f v = some (r, f1)
      ∧ (r = true ↔ ∃ j ∈ indices hash f v, f.bits.getD j false = false)
      ∧ (r = true ↔ «exists» hash f v = some false) := by
  have hk0 : 0 ≤ f.number_of_hash_functions := by omega
  obtain ⟨bits', hadd, _, _⟩ := add_spec hash f v hm hk0
  have hiff : (indices hash f v).any (fun j => !(f.bits.getD j false)) = true
      ↔ ∃ j ∈ indices hash f v, f.bits.getD j false = false := by
    rw [List.any_eq_true]
    constructor
    · rintro ⟨j, hj, hb⟩
      exact ⟨j, hj, by simpa using hb⟩
    · rintro ⟨j, hj, hb⟩
      exact ⟨j, hj, by rw [hb]; rfl⟩
  refine ⟨_, _, hadd, hiff, ?_⟩
  rw [hiff, exists_spec hash f v hm hk0]
  constructor
  · rintro ⟨j, hj, hb⟩
    congr 1
    rw [List.all_eq_false]
    exact ⟨j, hj, by rw [hb]; decide⟩
  · intro h
    have h' := Option.some.inj h
    rw [List.all_eq_false] at h'
    obtain ⟨j, hj, hb⟩ := h'
    exact ⟨j, hj, by simpa using hb⟩

/-- An instance of C2 in which both probes land on index 0. -/
theorem add_returns_changed_witness :
    1 ≤ (bloom_filter.mk [false, true] 2).bits.length
      ∧ 1 ≤ (bloom_filter.mk [false, true] 2).number_of_hash_functions
      ∧ indices (fun _ : Nat => (0, 0)) ⟨[false, true], 2⟩ 9 = [0, 0]
      ∧ ∃ r f1, add (fun _ : Nat => (0, 0)) ⟨[false, true], 2⟩ 9 = some (r, f1)
          ∧ (r = true ↔ ∃ j ∈ indices (fun _ : Nat => (0, 0)) ⟨[false, true], 2⟩ 9,
                (bloom_filter.mk [false, true] 2).bits.getD j false = false)
          ∧ (r = true ↔ «exists» (fun _ : Nat => (0, 0)) ⟨[false, true], 2⟩ 9 = some false) :=
  ⟨by decide, by decide, by decide,
    add_returns_changed (fun _ : Nat => (0, 0)) ⟨[false, true], 2⟩ 9 (by decide) (by decide)⟩

/-- C3. On a filter with `m ≥ 1` and `k ≥ 1`, `exists v` returns, and returns true exactly
when every one of the `k` bits derived for `v` is true: the early return gives the same
answer as testing all `k` bits.  A call of `exists` leaves the filter as it was. -/
theorem exists_iff_all_set {T : Type} (hash : T → Nat × Nat) (f : bloom_filter) (v : T)
    (hm : 1 ≤ f.bits.length) (hk : 1 ≤ f.number_of_hash_functions) :
    «exists» hash f v = some (decide (∀ j ∈ indices hash f v, f.bits.getD j false = true))
      ∧ run hash f [call.exists v] = some f := by
  have hk0 : 0 ≤ f.number_of_hash_functions := by omega
  have hex := exists_spec hash f v hm hk0
  refine ⟨?_, by simp only [run, hex]⟩
  rw [hex]
  congr 1
  rw [Bool.eq_iff_iff, List.all_eq_true, decide_eq_true_iff]

/-- An instance of C3: the second probe finds a false bit. -/
theorem exists_iff_all_set_witness :
    1 ≤ (bloom_filter.mk [true, false, true] 3).bits.length
      ∧ 1 ≤ (bloom_filter.mk [true, false, true] 3).number_of_hash_functions
      ∧ «exists» (fun n : Nat => (n, 1)) ⟨[true, false, true], 3⟩ 3
          = some (decide (∀ j ∈ indices (fun n : Nat => (n, 1)) ⟨[true, false, true], 3⟩ 3,
              (bloom_filter.mk [true, false, true] 3).bits.getD j false = true))
      ∧ run (fun n : Nat => (n, 1)) ⟨[true, false, true], 3⟩ [call.exists 3]
          = some ⟨[true, false, true], 3⟩ :=
  ⟨by decide, by decide,
    exists_iff_all_set (fun n : Nat => (n, 1)) ⟨[true, false, true], 3⟩ 3
      (by decide) (by decide)⟩

/-- C4. The constructor fails exactly when `size = 0` or `number_of_hash_functions ≤ 0`;
in every other case it yields the filter with `size` bits, all false, and the given probe
count.  `new 0 5` and `new 10 0` fail. -/
theorem new_fails_iff (size : Nat) (k : Int) :
    ((∃ msg, new size k = Except.error msg) ↔ (size = 0 ∨ k ≤ 0))
      ∧ ((size = 0 ∨ k ≤ 0) ∨ new size k = Except.ok ⟨List.replicate size false, k⟩)
      ∧ new 0 5 = Except.error "size must be greater than 0"
      ∧ new 10 0 = Except.error "number_of_hash_functions must be greater than 0" := by
  refine ⟨?_, ?_, rfl, rfl⟩
  · unfold new
    by_cases hs : size = 0
    · simp [hs]
    · by_cases hk : k ≤ 0
      · simp [hs, hk]
      · simp [hs, hk]
  · unfold new
    by_cases hs : size = 0
    · exact Or.inl (Or.inl hs)
    · by_cases hk : k ≤ 0
      · exact Or.inl (Or.inr hk)
      · right
        simp [hs, hk]

/-- C5. `reset` keeps the probe count and the number of bits and makes every bit false;
for a filter with `m ≥ 1` and `k ≥ 1` the result is the filter that the constructor returns
for `(m, k)`. -/
theorem reset_eq_fresh (f : bloom_filter) :
    (reset f).number_of_hash_functions = f.number_of_hash_functions
      ∧ (reset f).bits.length = f.bits.length
      ∧ (reset f).bits = List.replicate f.bits.length false
      ∧ (1 ≤ f.bits.length → 1 ≤ f.number_of_hash_functions →
          new f.bits.length f.number_of_hash_functions = Except.ok (reset f)) := by
  have hbits := reset_bits f
  refine ⟨rfl, by rw [hbits, List.length_replicate], hbits, ?_⟩
  intro hm hk
  have hs : ¬ f.bits.length = 0 := by omega
  have hk' : ¬ f.number_of_hash_functions ≤ 0 := by omega
  unfold new
  simp only [hs, hk', if_false]
  congr 1
  cases f with
  | mk bits k =>
    show bloom_filter.mk (List.replicate bits.length false) k = reset ⟨bits, k⟩
    rw [← reset_bits ⟨bits, k⟩]
    rfl

/-- An instance of C5: a filter with two of its three bits set. -/
theorem reset_eq_fresh_witness :
    1 ≤ (bloom_filter.mk [true, false, true] 2).bits.length
      ∧ 1 ≤ (bloom_filter.mk [true, false, true] 2).number_of_hash_functions
      ∧ new 3 2 = Except.ok (reset ⟨[true, false, true], 2⟩) :=
  ⟨by decide, by decide,
    (reset_eq_fresh ⟨[true, false, true], 2⟩).2.2.2 (by decide) (by decide)⟩

/-- C6. A filter that holds no insertion answers false to every query: the filter that
the constructor returns does, and so does any filter with `m ≥ 1` and `k ≥ 1` right after
`reset`, whatever its bits were. -/
theorem exists_false_when_empty {T : Type} (hash : T → Nat × Nat) (v : T) :
    (∀ size k f, new size k = Except.ok f → «exists» hash f v = some false)
      ∧ (∀ f : bloom_filter, 1 ≤ f.bits.length → 1 ≤ f.number_of_hash_functions →
          «exists» hash (reset f) v = some false) := by
  constructor
  · intro size k f hnew
    unfold new at hnew
    by_cases hs : size = 0
    · simp [hs] at hnew
    · by_cases hk : k ≤ 0
      · simp [hs, hk] at hnew
      · simp only [hs, hk, if_false] at hnew
        have hf : f = ⟨List.replicate size false, k⟩ := (Except.ok.inj hnew).symm
        subst hf
        apply exists_of_all_clear
        · show 0 < (List.replicate size false).length
          rw [List.length_replicate]; omega
        · show 1 ≤ k
          omega
        · intro j
          exact getD_replicate_false size j
  · intro f hm hk
    have hbits := reset_bits f
    apply exists_of_all_clear
    · rw [hbits, List.length_replicate]; exact hm
    · exact hk
    · intro j
      rw [hbits]
      exact getD_replicate_false _ j

/-- An instance of C6: a fresh filter, and a full filter after `reset`. -/
theorem exists_false_when_empty_witness :
    new 4 2 = Except.ok ⟨[false, false, false, false], 2⟩
      ∧ «exists» (fun n : Nat => (n, 3)) ⟨[false, false, false, false], 2⟩ 6 = some false
      ∧ 1 ≤ (bloom_filter.mk [true, true] 1).bits.length
      ∧ 1 ≤ (bloom_filter.mk [true, true] 1).number_of_hash_functions
      ∧ «exists» (fun n : Nat => (n, 3)) (reset ⟨[true, true], 1⟩) 6 = some false :=
  ⟨rfl,
    (exists_false_when_empty (fun n : Nat => (n, 3)) 6).1 4 2 _ rfl,
    by decide, by decide,
    (exists_false_when_empty (fun n : Nat => (n, 3)) 6).2 ⟨[true, true], 1⟩
      (by decide) (by decide)⟩

/-- C7. Insertion is idempotent: on a filter with `m ≥ 1` and `k ≥ 1`, after `add v` and
any finite sequence `cs` of further `add` and `exists` calls, `add v` returns false and the
filter after it is the filter before it (so every `exists w` answers the same before and
after), and `exists v` is true. -/
theorem add_idempotent {T : Type} (hash : T → Nat × Nat) (f : bloom_filter) (v : T)
    (cs : List (call T)) (hm : 1 ≤ f.bits.length) (hk : 1 ≤ f.number_of_hash_functions) :
    ∃ r f1 f2, add hash f v = some (r, f1) ∧ run hash f1 cs = some f2
      ∧ add hash f2 v = some (false, f2)
      ∧ (∀ w, «exists» hash f2 w
            = (add hash f2 v).bind (fun res => «exists» hash res.2 w))
      ∧ «exists» hash f2 v = some true := by
  have hk0 : 0 ≤ f.number_of_hash_functions := by omega
  obtain ⟨bits', hadd, hl, hb⟩ := add_spec hash f v hm hk0
  have hm1 : 0 < (bloom_filter.mk bits' f.number_of_hash_functions).bits.length := by
    show 0 < bits'.length
    rw [hl]; exact hm
  obtain ⟨f2, hrun, hk2, hl2, hmono⟩ := run_spec hash cs _ hm1 hk0
  have hm2 : 0 < f2.bits.length := by rw [hl2]; exact hm1
  have hk2' : 0 ≤ f2.number_of_hash_functions := by rw [hk2]; exact hk0
  have hset2 : ∀ j ∈ indices hash f2 v, f2.bits.getD j false = true := by
    intro j hj
    rw [indices_congr hash _ f2 v hk2 hl2,
      indices_congr hash f ⟨bits', f.number_of_hash_functions⟩ v rfl hl] at hj
    apply hmono
    show bits'.getD j false = true
    rw [hb j, decide_eq_true hj, Bool.or_true]
  have hadd2 := add_of_all_set hash f2 v hm2 hk2' hset2
  refine ⟨_, _, f2, hadd, hrun, hadd2, ?_, exists_of_all_set hash f2 v hm2 hk2' hset2⟩
  intro w
  rw [hadd2]
  rfl

/-- An instance of C7: `add 5`, then `add 7` and a query, then `add 5` again. -/
theorem add_idempotent_witness :
    1 ≤ (bloom_filter.mk [false, false, false, false, false] 2).bits.length
      ∧ 1 ≤ (bloom_filter.mk [false, false, false, false, false] 2).number_of_hash_functions
      ∧ ∃ r f1 f2,
          add (fun n : Nat => (n, 1)) ⟨[false, false, false, false, false], 2⟩ 5 = some (r, f1)
          ∧ run (fun n : Nat => (n, 1)) f1 [call.add 7, call.exists 5] = some f2
          ∧ add (fun n : Nat => (n, 1)) f2 5 = some (false, f2)
          ∧ (∀ w, «exists» (fun n : Nat => (n, 1)) f2 w
                = (add (fun n : Nat => (n, 1)) f2 5).bind
                    (fun res => «exists» (fun n : Nat => (n, 1)) res.2 w))
          ∧ «exists» (fun n : Nat => (n, 1)) f2 5 = some true :=
  ⟨by decide, by decide,
    add_idempotent (fun n : Nat => (n, 1)) ⟨[false, false, false, false, false], 2⟩ 5
      [call.add 7, call.exists 5] (by decide) (by decide)⟩

/-! ## Parameter sizing: how rounding errors accumulate -/

theorem close_mono (a x e e' : ℝ) (h : |a - x| ≤ e * |x|) (he : e ≤ e') :
    |a - x| ≤ e' * |x| :=
  le_trans h (mul_le_mul_of_nonneg_right he (abs_nonneg x))

theorem close_mul (a x b y e1 e2 : ℝ) (ha : |a - x| ≤ e1 * |x|) (hb : |b - y| ≤ e2 * |y|)
    (h1 : 0 ≤ e1) :
    |a * b - x * y| ≤ (e1 + e2 + e1 * e2) * |x * y| := by
  have hsplit : a * b - x * y = (a - x) * (b - y) + (a - x) * y + x * (b - y) := by ring
  have hx := abs_nonneg x
  have hy := abs_nonneg y
  have hax := abs_nonneg (a - x)
  have hby := abs_nonneg (b - y)
  have h3 : |(a - x) * (b - y)| ≤ e1 * |x| * (e2 * |y|) := by
    rw [abs_mul]
    exact mul_le_mul ha hb hby (mul_nonneg h1 hx)
  have h4 : |(a - x) * y| ≤ e1 * |x| * |y| := by
    rw [abs_mul]
    exact mul_le_mul_of_nonneg_right ha hy
  have h5 : |x * (b - y)| ≤ |x| * (e2 * |y|) := by
    rw [abs_mul]
    exact mul_le_mul_of_nonneg_left hb hx
  rw [hsplit, abs_mul x y]
  calc |(a - x) * (b - y) + (a - x) * y + x * (b - y)|
      ≤ |(a - x) * (b - y)| + |(a - x) * y| + |x * (b - y)| := abs_add_three _ _ _
    _ ≤ e1 * |x| * (e2 * |y|) + e1 * |x| * |y| + |x| * (e2 * |y|) := by linarith
    _ = (e1 + e2 + e1 * e2) * (|x| * |y|) := by ring

theorem close_div (a x b y e1 e2 : ℝ) (ha : |a - x| ≤ e1 * |x|) (hb : |b - y| ≤ e2 * |y|)
    (h1 : 0 ≤ e1) (h2 : 0 ≤ e2) (h2' : e2 < 1) (hy : y ≠ 0) :
    b ≠ 0 ∧ |a / b - x / y| ≤ (e1 + e2) / (1 - e2) * |x / y| := by
  have hypos : 0 < |y| := abs_pos.mpr hy
  have hx := abs_nonneg x
  have hblow : (1 - e2) * |y| ≤ |b| := by
    have h := abs_sub_abs_le_abs_sub y b
    rw [abs_sub_comm y b] at h
    linarith
  have hbpos : 0 < |b| := lt_of_lt_of_le (mul_pos (by linarith) hypos) hblow
  have hb0 : b ≠ 0 := abs_pos.mp hbpos
  refine ⟨hb0, ?_⟩
  have hsplit : a / b - x / y = ((a - x) * y - x * (b - y)) / (b * y) := by
    field_simp
    ring
  have hnum : |(a - x) * y - x * (b - y)| ≤ (e1 + e2) * (|x| * |y|) := by
    calc |(a - x) * y - x * (b - y)| ≤ |(a - x) * y| + |x * (b - y)| := abs_sub _ _
      _ = |a - x| * |y| + |x| * |b - y| := by rw [abs_mul, abs_mul]
      _ ≤ e1 * |x| * |y| + |x| * (e2 * |y|) :=
        add_le_add (mul_le_mul_of_nonneg_right ha (le_of_lt hypos))
          (mul_le_mul_of_nonneg_left hb hx)
      _ = (e1 + e2) * (|x| * |y|) := by ring
  have hden : (1 - e2) * (|y| * |y|) ≤ |b * y| := by
    rw [abs_mul]
    calc (1 - e2) * (|y| * |y|) = (1 - e2) * |y| * |y| := by ring
      _ ≤ |b| * |y| := mul_le_mul_of_nonneg_right hblow (le_of_lt hypos)
  have hdenpos : 0 < (1 - e2) * (|y| * |y|) := mul_pos (by linarith) (mul_pos hypos hypos)
  rw [hsplit, abs_div, abs_div]
  calc |(a - x) * y - x * (b - y)| / |b * y|
      ≤ (e1 + e2) * (|x| * |y|) / |b * y| :=
        div_le_div_of_nonneg_right hnum (abs_nonneg _)
    _ ≤ (e1 + e2) * (|x| * |y|) / ((1 - e2) * (|y| * |y|)) :=
        div_le_div_of_nonneg_left (mul_nonneg (by linarith) (mul_nonneg hx (le_of_lt hypos)))
          hdenpos hden
    _ = (e1 + e2) / (1 - e2) * (|x| / |y|) := by
        have h1e : (1 - e2) ≠ 0 := by linarith
        generalize |y| = Y at hypos ⊢
        generalize |x| = X
        have hY : Y ≠ 0 := ne_of_gt hypos
        field_simp
        ring

theorem close_rnd (rnd : ℝ → ℝ) (hr : dbl.rounds_to_nearest rnd) (a x e : ℝ)
    (ha : |a - x| ≤ e * |x|) (he0 : 0 ≤ e) (he : e ≤ 1 / 2)
    (hlo : 1 / 2 ^ 1021 ≤ |x|) (hhi : |x| ≤ 2 ^ 1022) :
    |rnd a - x| ≤ (e + 1 / 2 ^ 53 + 1 / 2 ^ 53 * e) * |x| := by
  have hx := abs_nonneg x
  have hahi : |a| ≤ (1 + e) * |x| := by
    have h := abs_sub_abs_le_abs_sub a x
    linarith
  have halo : (1 - e) * |x| ≤ |a| := by
    have h := abs_sub_abs_le_abs_sub x a
    rw [abs_sub_comm x a] at h
    linarith
  have hrange1 : 1 / 2 ^ 1022 ≤ |a| := by
    have : (1 : ℝ) / 2 ^ 1022 = 1 / 2 * (1 / 2 ^ 1021) := by norm_num
    nlinarith
  have hrange2 : |a| ≤ 2 ^ 1023 := by
    have : (2 : ℝ) ^ 1023 = 2 * 2 ^ 1022 := by norm_num
    nlinarith
  have hrnd := hr.2.2 a hrange1 hrange2
  have htri : |rnd a - x| ≤ |rnd a - a| + |a - x| := abs_sub_le _ _ _
  have hu : (0 : ℝ) ≤ 1 / 2 ^ 53 := by positivity
  calc |rnd a - x| ≤ |rnd a - a| + |a - x| := htri
    _ ≤ 1 / 2 ^ 53 * ((1 + e) * |x|) + e * |x| :=
        add_le_add (le_trans hrnd (mul_le_mul_of_nonneg_left hahi hu)) ha
    _ = (e + 1 / 2 ^ 53 + 1 / 2 ^ 53 * e) * |x| := by ring

/-- Exact arithmetic is one rounding that meets the assumptions. -/
theorem rounds_to_nearest_id : dbl.rounds_to_nearest (id : ℝ → ℝ) := by
  refine ⟨monotone_id, rfl, ?_⟩
  intro x _ _
  simp only [id, sub_self, abs_zero]
  positivity

/-- The exact logarithm is one library logarithm that meets the assumptions. -/
theorem log_accurate_exact : log_accurate Real.log := by
  intro x _
  simp only [sub_self, abs_zero]
  positivity

theorem log_monotone_exact : log_monotone Real.log :=
  fun _ _ hx hxy => Real.log_le_log hx hxy

/-! ## Parameter sizing: the number of bits -/

theorem to_size_t_fin (x : ℝ) (h0 : -1 < x) (h1 : x < 2 ^ 64) :
    dbl.to_size_t (dbl.fin x) = some ⌊x⌋₊ := by
  simp only [dbl.to_size_t, h0, h1, and_self, if_true]

theorem log_two_sq_bounds :
    (0.48045 : ℝ) < (Real.log 2) ^ 2 ∧ (Real.log 2) ^ 2 < 0.48046 := by
  have h2l := Real.log_two_gt_d9
  have h2u := Real.log_two_lt_d9
  have hpos : (0 : ℝ) < Real.log 2 := Real.log_pos (by norm_num)
  constructor
  · calc (0.48045 : ℝ) < (0.6931471803 : ℝ) ^ 2 := by norm_num
      _ < (Real.log 2) ^ 2 := pow_lt_pow_left₀ h2l (by norm_num) (by norm_num)
  · calc (Real.log 2) ^ 2 < (0.6931471808 : ℝ) ^ 2 :=
        pow_lt_pow_left₀ h2u (le_of_lt hpos) (by norm_num)
      _ < 0.48046 := by norm_num

/-- The library value of `ln 2` is positive. -/
theorem ln_two_pos (ln : ℝ → ℝ) (hl : log_accurate ln) : 0 < ln 2 := by
  have h := hl 2 (by norm_num)
  have h2l := Real.log_two_gt_d9
  have hpos : (0 : ℝ) < Real.log 2 := Real.log_pos (by norm_num)
  rw [abs_of_pos hpos] at h
  have h' := (abs_le.mp h).1
  have hsmall : (1 : ℝ) / 2 ^ 52 * Real.log 2 ≤ 1 / 2 * Real.log 2 :=
    mul_le_mul_of_nonneg_right (by norm_num) (le_of_lt hpos)
  linarith

/-- The divisor `log(2.0) * log(2.0)` as the source evaluates it is within `7 * 2^(-53)`
of `(ln 2)^2`, and positive. -/
theorem denominator_close (rnd ln : ℝ → ℝ) (hr : dbl.rounds_to_nearest rnd)
    (hl : log_accurate ln) :
    |rnd (ln 2 * ln 2) - (Real.log 2) ^ 2| ≤ 7 / 2 ^ 53 * |(Real.log 2) ^ 2|
      ∧ 0 < rnd (ln 2 * ln 2) := by
  obtain ⟨hsl, hsu⟩ := log_two_sq_bounds
  have h2 := hl 2 (by norm_num)
  have hmul := close_mul (ln 2) (Real.log 2) (ln 2) (Real.log 2) _ _ h2 h2 (by positivity)
  rw [← sq (Real.log 2)] at hmul
  have hsqabs : |(Real.log 2) ^ 2| = (Real.log 2) ^ 2 := abs_of_pos (by linarith)
  have hmul' := close_mono _ _ _ (5 / 2 ^ 53) hmul (by norm_num)
  have hrnd := close_rnd rnd hr _ _ _ hmul' (by positivity) (by norm_num)
    (by rw [hsqabs]; exact le_trans (by norm_num) (le_of_lt hsl))
    (by rw [hsqabs]; exact le_trans (le_of_lt hsu) (by norm_num))
  have hclose := close_mono _ _ _ (7 / 2 ^ 53) hrnd (by norm_num)
  refine ⟨hclose, ?_⟩
  rw [hsqabs] at hclose
  have h' := (abs_le.mp hclose).1
  have hsmall : (7 : ℝ) / 2 ^ 53 * (Real.log 2) ^ 2 ≤ 1 / 2 * (Real.log 2) ^ 2 :=
    mul_le_mul_of_nonneg_right (by norm_num) (by linarith)
  linarith

/-- For a positive finite `p` no infinity or NaN arises, and the double that is converted
to `std::size_t` is the quotient as computed. -/
theorem optimal_number_of_bits_of_pos (rnd ln : ℝ → ℝ) (hr : dbl.rounds_to_nearest rnd)
    (hl : log_accurate ln) (n : Int) (p : ℝ) (hn : n ≠ -(2 : Int) ^ 63) (hp : 0 < p) :
    optimal_number_of_bits rnd ln n (dbl.fin p)
      = dbl.to_size_t (dbl.fin (bits_quotient_computed rnd ln n p)) := by
  have h2 : (0 : ℝ) < 2 := by norm_num
  have hne : ¬ (rnd (ln 2 * ln 2) = 0) := ne_of_gt (denominator_close rnd ln hr hl).2
  have hpne : ¬ (p = 0) := ne_of_gt hp
  simp only [optimal_number_of_bits, dbl.is_zero, hpne, decide_False, Bool.false_eq_true,
    if_false, hn, dbl.log, hp, if_true, h2, dbl.of_int64, dbl.mul, dbl.div, hne,
    bits_quotient_computed]

/-- For `p == 0` the function computes with `DBL_MIN` in place of `p`. -/
theorem optimal_number_of_bits_of_zero (rnd ln : ℝ → ℝ) (n : Int) :
    optimal_number_of_bits rnd ln n (dbl.fin 0)
      = optimal_number_of_bits rnd ln n (dbl.fin dbl.DBL_MIN) := by
  have hmin : ¬ ((dbl.DBL_MIN : ℝ) = 0) := by
    unfold dbl.DBL_MIN
    positivity
  simp only [optimal_number_of_bits, dbl.is_zero, decide_True, if_true, hmin, decide_False,
    Bool.false_eq_true, if_false]

/-- The logarithm of a double strictly between 0 and 1: negative, and between `2^(-53)`
and 745 in magnitude. -/
theorem log_range (p : ℝ) (hp0 : 1 / 2 ^ 1074 ≤ p) (hp1 : p ≤ 1 - 1 / 2 ^ 53) :
    Real.log p < 0 ∧ 1 / 2 ^ 53 ≤ |Real.log p| ∧ |Real.log p| ≤ 745 := by
  have hpos : 0 < p := lt_of_lt_of_le (by positivity) hp0
  have hup : Real.log p ≤ p - 1 := Real.log_le_sub_one_of_pos hpos
  have hneg : Real.log p < 0 := by
    have : (0 : ℝ) < 1 / 2 ^ 53 := by positivity
    linarith
  have hlow : Real.log (1 / 2 ^ 1074) ≤ Real.log p := Real.log_le_log (by positivity) hp0
  have hval : Real.log ((1 : ℝ) / 2 ^ 1074) = -(1074 * Real.log 2) := by
    rw [one_div, Real.log_inv, Real.log_pow]
    norm_num
  have h2u := Real.log_two_lt_d9
  rw [abs_of_neg hneg]
  refine ⟨hneg, by linarith, ?_⟩
  rw [hval] at hlow
  norm_num at h2u
  linarith

/-- The quotient as computed is within `2^(-49)` of the exact quotient, in relative terms:
for a count `n` with `1 ≤ |n| ≤ 2^63` and a positive `p` whose logarithm is between
`2^(-53)` and 745 in magnitude. -/
theorem bits_quotient_computed_close_of_log (rnd ln : ℝ → ℝ) (hr : dbl.rounds_to_nearest rnd)
    (hl : log_accurate ln) (n : Int) (p : ℝ) (hn1 : 1 ≤ |(n : ℝ)|) (hn2 : |(n : ℝ)| ≤ 2 ^ 63)
    (hppos : 0 < p) (hllo : 1 / 2 ^ 53 ≤ |Real.log p|) (hlhi : |Real.log p| ≤ 745) :
    |bits_quotient_computed rnd ln n p - bits_quotient Real.log n p|
      ≤ 1 / 2 ^ 49 * |bits_quotient Real.log n p| := by
  obtain ⟨hsl, hsu⟩ := log_two_sq_bounds
  obtain ⟨hden, _⟩ := denominator_close rnd ln hr hl
  have hcast : (((-n : Int) : ℝ)) = -(n : ℝ) := by push_cast; ring
  have habsn : |(((-n : Int) : ℝ))| = |(n : ℝ)| := by rw [hcast, abs_neg]
  -- the conversion of `-n`
  have h1 : |rnd ((-n : Int) : ℝ) - ((-n : Int) : ℝ)| ≤ 1 / 2 ^ 53 * |(((-n : Int) : ℝ))| :=
    hr.2.2 _ (by rw [habsn]; exact le_trans (by norm_num) hn1)
      (by rw [habsn]; exact le_trans hn2 (by norm_num))
  -- the product with `log(p)`
  have h2 := close_mul _ _ _ _ _ _ h1 (hl p hppos) (by positivity)
  have h2' := close_mono _ _ _ (4 / 2 ^ 53) h2 (by norm_num)
  have hprod : |(((-n : Int) : ℝ)) * Real.log p| = |(n : ℝ)| * |Real.log p| := by
    rw [abs_mul, habsn]
  have hprodlo : 1 / 2 ^ 53 ≤ |(n : ℝ)| * |Real.log p| := by nlinarith
  have hprodhi : |(n : ℝ)| * |Real.log p| ≤ 2 ^ 63 * 745 := by
    have := abs_nonneg (Real.log p)
    nlinarith
  have h3 := close_rnd rnd hr _ _ _ h2' (by positivity) (by norm_num)
    (by rw [hprod]; exact le_trans (by norm_num) hprodlo)
    (by rw [hprod]; exact le_trans hprodhi (by norm_num))
  have h3' := close_mono _ _ _ (6 / 2 ^ 53) h3 (by norm_num)
  -- the quotient
  have hsqpos : (0 : ℝ) < (Real.log 2) ^ 2 := by linarith
  have hsqne : (Real.log 2) ^ 2 ≠ 0 := ne_of_gt hsqpos
  obtain ⟨_, h4⟩ := close_div _ _ _ _ _ _ h3' hden (by positivity) (by positivity)
    (by norm_num) hsqne
  have h4' := close_mono _ _ _ (14 / 2 ^ 53) h4 (by norm_num)
  have hq : |(((-n : Int) : ℝ)) * Real.log p / (Real.log 2) ^ 2|
      = |(n : ℝ)| * |Real.log p| / (Real.log 2) ^ 2 := by
    rw [abs_div, hprod, abs_of_pos hsqpos]
  have hqlo : 1 / 2 ^ 53 ≤ |(n : ℝ)| * |Real.log p| / (Real.log 2) ^ 2 := by
    rw [le_div_iff₀ hsqpos]
    nlinarith
  have hqhi : |(n : ℝ)| * |Real.log p| / (Real.log 2) ^ 2 ≤ 2 ^ 63 * 745 * 3 := by
    rw [div_le_iff₀ hsqpos]
    nlinarith
  have h5 := close_rnd rnd hr _ _ _ h4' (by positivity) (by norm_num)
    (by rw [hq]; exact le_trans (by norm_num) hqlo)
    (by rw [hq]; exact le_trans hqhi (by norm_num))
  have h5' := close_mono _ _ _ (1 / 2 ^ 49) h5 (by norm_num)
  have hexact : bits_quotient Real.log n p
      = (((-n : Int) : ℝ)) * Real.log p / (Real.log 2) ^ 2 := by
    unfold bits_quotient
    rw [hcast]
  rw [hexact]
  exact h5'

/-- The same for `1 ≤ n ≤ 2^63` and a double `p` strictly between 0 and 1. -/
theorem bits_quotient_computed_close (rnd ln : ℝ → ℝ) (hr : dbl.rounds_to_nearest rnd)
    (hl : log_accurate ln) (n : Int) (p : ℝ) (hn1 : 1 ≤ n) (hn2 : n ≤ 2 ^ 63)
    (hp0 : 1 / 2 ^ 1074 ≤ p) (hp1 : p ≤ 1 - 1 / 2 ^ 53) :
    |bits_quotient_computed rnd ln n p - bits_quotient Real.log n p|
      ≤ 1 / 2 ^ 49 * |bits_quotient Real.log n p| := by
  obtain ⟨_, hllo, hlhi⟩ := log_range p hp0 hp1
  have hnr1 : (1 : ℝ) ≤ (n : ℝ) := by exact_mod_cast hn1
  have hnr2 : (n : ℝ) ≤ 2 ^ 63 := by exact_mod_cast hn2
  have habs : |(n : ℝ)| = (n : ℝ) := abs_of_pos (by linarith)
  exact bits_quotient_computed_close_of_log rnd ln hr hl n p (by rw [habs]; exact hnr1)
    (by rw [habs]; exact hnr2) (lt_of_lt_of_le (by positivity) hp0) hllo hlhi

theorem bits_quotient_nonneg (n : Int) (p : ℝ) (hn : 0 ≤ n) (hp0 : 0 < p) (hp1 : p ≤ 1) :
    0 ≤ bits_quotient Real.log n p := by
  unfold bits_quotient
  apply div_nonneg _ (sq_nonneg _)
  have hlog : Real.log p ≤ 0 := Real.log_nonpos (le_of_lt hp0) hp1
  have hnr : (0 : ℝ) ≤ (n : ℝ) := by exact_mod_cast hn
  nlinarith

/-- The computed quotient lies between `q * (1 - 2^(-49))` and `q * (1 + 2^(-49))`, where
`q` is the exact quotient. -/
theorem bits_quotient_computed_bounds (rnd ln : ℝ → ℝ) (hr : dbl.rounds_to_nearest rnd)
    (hl : log_accurate ln) (n : Int) (p : ℝ) (hn1 : 1 ≤ n) (hn2 : n ≤ 2 ^ 63)
    (hp0 : 1 / 2 ^ 1074 ≤ p) (hp1 : p ≤ 1 - 1 / 2 ^ 53) :
    bits_quotient Real.log n p * (1 - 1 / 2 ^ 49) ≤ bits_quotient_computed rnd ln n p
      ∧ bits_quotient_computed rnd ln n p ≤ bits_quotient Real.log n p * (1 + 1 / 2 ^ 49) := by
  have hppos : 0 < p := lt_of_lt_of_le (by positivity) hp0
  have hp1' : p ≤ 1 := le_trans hp1 (by norm_num)
  have hq0 := bits_quotient_nonneg n p (by omega) hppos hp1'
  have h := bits_quotient_computed_close rnd ln hr hl n p hn1 hn2 hp0 hp1
  rw [abs_of_nonneg hq0] at h
  obtain ⟨h1, h2⟩ := abs_le.mp h
  constructor <;> linarith

/-- The value of `optimal_number_of_bits` when the exact quotient is far enough from the
integers `k` and `k + 1` on either side of it (which needs a quotient below `2^48`). -/
theorem optimal_number_of_bits_value (rnd ln : ℝ → ℝ) (hr : dbl.rounds_to_nearest rnd)
    (hl : log_accurate ln) (n : Int) (p : ℝ) (hn1 : 1 ≤ n) (hn2 : n < 2 ^ 63)
    (hp0 : 1 / 2 ^ 1074 ≤ p) (hp1 : p ≤ 1 - 1 / 2 ^ 53) (k : Nat)
    (hk1 : (k : ℝ) ≤ bits_quotient Real.log n p * (1 - 1 / 2 ^ 49))
    (hk2 : bits_quotient Real.log n p * (1 + 1 / 2 ^ 49) < k + 1) :
    optimal_number_of_bits rnd ln n (dbl.fin p) = some k := by
  have hppos : 0 < p := lt_of_lt_of_le (by positivity) hp0
  obtain ⟨hlo, hhi⟩ := bits_quotient_computed_bounds rnd ln hr hl n p hn1 (by omega) hp0 hp1
  have hk0 : (0 : ℝ) ≤ (k : ℝ) := Nat.cast_nonneg k
  rw [optimal_number_of_bits_of_pos rnd ln hr hl n p (by omega) hppos,
    to_size_t_fin _ (by linarith) (by linarith)]
  congr 1
  rw [Nat.floor_eq_iff (by linarith)]
  exact ⟨by linarith, by linarith⟩

theorem log_ten_bounds : (2.3024 : ℝ) < Real.log 10 ∧ Real.log 10 < 2.3027 := by
  have h2l := Real.log_two_gt_d9
  have h2u := Real.log_two_lt_d9
  have h1024 : Real.log 1024 = 10 * Real.log 2 := by
    rw [show (1024 : ℝ) = 2 ^ 10 by norm_num, Real.log_pow]; norm_num
  have h1000 : Real.log 1000 = 3 * Real.log 10 := by
    rw [show (1000 : ℝ) = 10 ^ 3 by norm_num, Real.log_pow]; norm_num
  have hsplit : Real.log 1024 = Real.log 1000 + Real.log (128 / 125) := by
    rw [← Real.log_mul (by norm_num) (by norm_num)]; norm_num
  have hu : Real.log (128 / 125) ≤ 128 / 125 - 1 := Real.log_le_sub_one_of_pos (by norm_num)
  have hl : 1 - (128 / 125 : ℝ)⁻¹ ≤ Real.log (128 / 125) :=
    Real.one_sub_inv_le_log_of_pos (by norm_num)
  norm_num at hu hl h2l h2u ⊢
  constructor <;> linarith

/-- A decimal constant between `2^(-1000)` and `2^1000` and the double that the compiler
makes of it: the double is positive and its logarithm differs by at most `2^(-52)`. -/
theorem log_rnd_bounds (rnd : ℝ → ℝ) (hr : dbl.rounds_to_nearest rnd) (x : ℝ)
    (hx0 : 1 / 2 ^ 1000 ≤ x) (hx1 : x ≤ 2 ^ 1000) :
    x * (1 - 1 / 2 ^ 53) ≤ rnd x ∧ rnd x ≤ x * (1 + 1 / 2 ^ 53)
      ∧ Real.log x - 1 / 2 ^ 52 ≤ Real.log (rnd x)
      ∧ Real.log (rnd x) ≤ Real.log x + 1 / 2 ^ 53 := by
  have hxpos : 0 < x := lt_of_lt_of_le (by positivity) hx0
  have habs : |x| = x := abs_of_pos hxpos
  have h := hr.2.2 x (by rw [habs]; exact le_trans (by norm_num) hx0)
    (by rw [habs]; exact le_trans hx1 (by norm_num))
  rw [habs] at h
  obtain ⟨h1, h2⟩ := abs_le.mp h
  have hlo : x * (1 - 1 / 2 ^ 53) ≤ rnd x := by linarith
  have hhi : rnd x ≤ x * (1 + 1 / 2 ^ 53) := by linarith
  have hlopos : 0 < x * (1 - 1 / 2 ^ 53) := mul_pos hxpos (by norm_num)
  have hrpos : 0 < rnd x := lt_of_lt_of_le hlopos hlo
  refine ⟨hlo, hhi, ?_, ?_⟩
  · have hmono := Real.log_le_log hlopos hlo
    rw [Real.log_mul (ne_of_gt hxpos) (by norm_num)] at hmono
    have hinv : 1 - ((1 : ℝ) - 1 / 2 ^ 53)⁻¹ ≤ Real.log (1 - 1 / 2 ^ 53) :=
      Real.one_sub_inv_le_log_of_pos (by norm_num)
    have hnum : -(1 / 2 ^ 52 : ℝ) ≤ 1 - ((1 : ℝ) - 1 / 2 ^ 53)⁻¹ := by norm_num
    linarith
  · have hmono := Real.log_le_log hrpos hhi
    rw [Real.log_mul (ne_of_gt hxpos) (by norm_num)] at hmono
    have hup : Real.log (1 + 1 / 2 ^ 53) ≤ (1 + 1 / 2 ^ 53) - 1 :=
      Real.log_le_sub_one_of_pos (by norm_num)
    linarith

/-- The exact quotient at `n = 100` and the double of `0.01` lies strictly between 958.3
and 958.7. -/
theorem bits_quotient_100 (rnd : ℝ → ℝ) (hr : dbl.rounds_to_nearest rnd) :
    (958.3 : ℝ) < bits_quotient Real.log 100 (rnd (1 / 100))
      ∧ bits_quotient Real.log 100 (rnd (1 / 100)) < 958.7
      ∧ 1 / 2 ^ 1074 ≤ rnd (1 / 100) ∧ rnd (1 / 100) ≤ 1 - 1 / 2 ^ 53 := by
  obtain ⟨h10l, h10u⟩ := log_ten_bounds
  obtain ⟨hsl, hsu⟩ := log_two_sq_bounds
  obtain ⟨hlo, hhi, hloglo, hloghi⟩ :=
    log_rnd_bounds rnd hr (1 / 100) (by norm_num) (by norm_num)
  have hsq : (0 : ℝ) < (Real.log 2) ^ 2 := by linarith
  have hlog : Real.log (1 / 100) = -(2 * Real.log 10) := by
    rw [one_div, Real.log_inv, show (100 : ℝ) = 10 ^ 2 by norm_num, Real.log_pow]
    norm_num
  rw [hlog] at hloglo hloghi
  refine ⟨?_, ?_, ?_, ?_⟩
  · unfold bits_quotient
    rw [lt_div_iff₀ hsq]
    push_cast
    norm_num at hloghi ⊢
    nlinarith
  · unfold bits_quotient
    rw [div_lt_iff₀ hsq]
    push_cast
    norm_num at hloglo ⊢
    nlinarith
  · refine le_trans ?_ hlo
    norm_num
  · refine le_trans hhi ?_
    norm_num

/-- C8, as stated, fails at `n = 100`, `p = 0.01`: whatever the rounding and the library
logarithm, within the assumptions, the function returns 958, the integer part of the
quotient, and the ceiling of the quotient is 959; so it is in exact arithmetic. -/
theorem optimal_number_of_bits_not_ceil :
    (∀ rnd ln : ℝ → ℝ, dbl.rounds_to_nearest rnd → log_accurate ln →
        optimal_number_of_bits rnd ln 100 (dbl.fin (rnd (1 / 100))) = some 958
          ∧ ⌈bits_quotient Real.log 100 (rnd (1 / 100))⌉₊ = 959)
      ∧ optimal_number_of_bits id Real.log 100 (dbl.fin (1 / 100)) = some 958
      ∧ ⌈bits_quotient Real.log 100 (1 / 100)⌉₊ = 959 := by
  have hgen : ∀ rnd ln : ℝ → ℝ, dbl.rounds_to_nearest rnd → log_accurate ln →
      optimal_number_of_bits rnd ln 100 (dbl.fin (rnd (1 / 100))) = some 958
        ∧ ⌈bits_quotient Real.log 100 (rnd (1 / 100))⌉₊ = 959 := by
    intro rnd ln hr hl
    obtain ⟨hlo, hhi, hp0, hp1⟩ := bits_quotient_100 rnd hr
    constructor
    · apply optimal_number_of_bits_value rnd ln hr hl 100 _ (by norm_num) (by norm_num)
        hp0 hp1 958
      · norm_num
        linarith
      · norm_num
        linarith
    · rw [Nat.ceil_eq_iff (by norm_num)]
      constructor
      · norm_num
        linarith
      · norm_num
        linarith
  have hid := hgen id Real.log rounds_to_nearest_id log_accurate_exact
  exact ⟨hgen, hid.1, hid.2⟩

/-- C8, amended. For `1 ≤ n < 2^63` and a double `p` with `0 < p < 1`, let `q` be the exact
quotient `-n * ln p / (ln 2)^2` and suppose `q * (1 + 2^(-49)) < 2^64`.  Then
`optimal_number_of_bits n p` returns the integer part of the quotient as it is evaluated in
binary64, a value within `2^(-49) * q` of `q`: the conversion to `std::size_t` truncates.
The result is `k = floor(q)` whenever `k ≤ q * (1 - 2^(-49))` and
`q * (1 + 2^(-49)) < k + 1`, which is so whenever `q` is not within `2^(-49) * q` of an
integer.  (A quotient of `2^64` or more is not a `std::size_t`: see
`optimal_number_of_bits_large`.) -/
theorem optimal_number_of_bits_truncates (rnd ln : ℝ → ℝ) (hr : dbl.rounds_to_nearest rnd)
    (hl : log_accurate ln) (n : Int) (p : ℝ) (hn1 : 1 ≤ n) (hn2 : n < 2 ^ 63)
    (hp0 : 1 / 2 ^ 1074 ≤ p) (hp1 : p ≤ 1 - 1 / 2 ^ 53)
    (hq : bits_quotient Real.log n p * (1 + 1 / 2 ^ 49) < 2 ^ 64) :
    optimal_number_of_bits rnd ln n (dbl.fin p)
        = some ⌊bits_quotient_computed rnd ln n p⌋₊
      ∧ |bits_quotient_computed rnd ln n p - bits_quotient Real.log n p|
          ≤ 1 / 2 ^ 49 * bits_quotient Real.log n p
      ∧ (∀ k : Nat, (k : ℝ) ≤ bits_quotient Real.log n p * (1 - 1 / 2 ^ 49) →
          bits_quotient Real.log n p * (1 + 1 / 2 ^ 49) < k + 1 →
          optimal_number_of_bits rnd ln n (dbl.fin p) = some k
            ∧ ⌊bits_quotient Real.log n p⌋₊ = k) := by
  have hppos : 0 < p := lt_of_lt_of_le (by positivity) hp0
  have hp1' : p ≤ 1 := le_trans hp1 (by norm_num)
  have hq0 := bits_quotient_nonneg n p (by omega) hppos hp1'
  obtain ⟨hlo, hhi⟩ := bits_quotient_computed_bounds rnd ln hr hl n p hn1 (by omega) hp0 hp1
  have hclose := bits_quotient_computed_close rnd ln hr hl n p hn1 (by omega) hp0 hp1
  rw [abs_of_nonneg hq0] at hclose
  have heta : (0 : ℝ) ≤ 1 - 1 / 2 ^ 49 := by norm_num
  refine ⟨?_, hclose, ?_⟩
  · rw [optimal_number_of_bits_of_pos rnd ln hr hl n p (by omega) hppos,
      to_size_t_fin _ (by nlinarith) (by linarith)]
  · intro k hk1 hk2
    refine ⟨optimal_number_of_bits_value rnd ln hr hl n p hn1 hn2 hp0 hp1 k hk1 hk2, ?_⟩
    rw [Nat.floor_eq_iff hq0]
    have h49 : (0 : ℝ) ≤ 1 / 2 ^ 49 := by positivity
    constructor
    · nlinarith
    · nlinarith

/-- An instance of the amended C8, in exact arithmetic: `n = 1`, `p = 1/2`, where the
quotient is `1 / ln 2`, about 1.44, and the result is 1. -/
theorem optimal_number_of_bits_truncates_witness :
    dbl.rounds_to_nearest (id : ℝ → ℝ) ∧ log_accurate Real.log
      ∧ (1 : Int) ≤ 1 ∧ (1 : Int) < 2 ^ 63
      ∧ (1 : ℝ) / 2 ^ 1074 ≤ 1 / 2 ∧ (1 / 2 : ℝ) ≤ 1 - 1 / 2 ^ 53
      ∧ bits_quotient Real.log 1 (1 / 2) * (1 + 1 / 2 ^ 49) < 2 ^ 64
      ∧ optimal_number_of_bits id Real.log 1 (dbl.fin (1 / 2)) = some 1 :=
  have hqb : (1.4 : ℝ) < bits_quotient Real.log 1 (1 / 2)
      ∧ bits_quotient Real.log 1 (1 / 2) < 1.5 := by
    have h2l := Real.log_two_gt_d9
    have h2u := Real.log_two_lt_d9
    have hpos : (0 : ℝ) < Real.log 2 := Real.log_pos (by norm_num)
    have hval : bits_quotient Real.log 1 (1 / 2) = 1 / Real.log 2 := by
      unfold bits_quotient
      rw [one_div, Real.log_inv]
      field_simp
      ring
    rw [hval, lt_div_iff₀ hpos, div_lt_iff₀ hpos]
    norm_num at h2l h2u ⊢
    constructor <;> linarith
  have hq : bits_quotient Real.log 1 (1 / 2) * (1 + 1 / 2 ^ 49) < 2 ^ 64 := by
    have h49 : (1 : ℝ) + 1 / 2 ^ 49 ≤ 2 := by norm_num
    nlinarith [hqb.1, hqb.2]
  ⟨rounds_to_nearest_id, log_accurate_exact, le_refl 1, by norm_num, by norm_num,
    by norm_num, hq,
    ((optimal_number_of_bits_truncates id Real.log rounds_to_nearest_id log_accurate_exact
      1 (1 / 2) (le_refl 1) (by norm_num) (by norm_num) (by norm_num) hq).2.2 1
      (by norm_num; linarith [hqb.1]) (by norm_num; linarith [hqb.2])).1⟩

/-! ## Parameter sizing: the number of hash functions -/

theorem to_int32_fin_int (k : Int) (h1 : 1 ≤ k) :
    dbl.to_int32 (dbl.fin (k : ℝ)) = if k < 2 ^ 31 then some k else none := by
  have hk0 : (0 : ℝ) ≤ (k : ℝ) := by exact_mod_cast (by omega : (0 : Int) ≤ k)
  have hlow : -(2 ^ 31 : ℝ) - 1 < (k : ℝ) := by
    have : (0 : ℝ) < 2 ^ 31 := by positivity
    linarith
  by_cases hk : k < 2 ^ 31
  · have hkr : (k : ℝ) < 2 ^ 31 := by exact_mod_cast hk
    simp only [dbl.to_int32, hlow, hkr, and_self, if_true, hk, dbl.trunc, hk0, Int.floor_intCast]
  · have hkr : ¬ (k : ℝ) < 2 ^ 31 := by
      intro h
      exact hk (by exact_mod_cast h)
    simp only [dbl.to_int32, hkr, and_false, if_false, hk]

theorem rnd_one_pos (rnd : ℝ → ℝ) (hr : dbl.rounds_to_nearest rnd) : 0 < rnd 1 := by
  have h := hr.2.2 1 (by rw [abs_one]; norm_num) (by rw [abs_one]; norm_num)
  rw [abs_one] at h
  have h' := (abs_le.mp h).1
  norm_num at h'
  linarith

theorem rnd_neg_one_neg (rnd : ℝ → ℝ) (hr : dbl.rounds_to_nearest rnd) : rnd (-1) < 0 := by
  have h := hr.2.2 (-1) (by rw [abs_neg, abs_one]; norm_num)
    (by rw [abs_neg, abs_one]; norm_num)
  rw [abs_neg, abs_one] at h
  have h' := (abs_le.mp h).2
  norm_num at h'
  linarith

theorem rnd_nonneg (rnd : ℝ → ℝ) (hr : dbl.rounds_to_nearest rnd) (x : ℝ) (hx : 0 ≤ x) :
    0 ≤ rnd x := by
  have h := hr.1 hx
  rw [hr.2.1] at h
  exact h

theorem rnd_nonpos (rnd : ℝ → ℝ) (hr : dbl.rounds_to_nearest rnd) (x : ℝ) (hx : x ≤ 0) :
    rnd x ≤ 0 := by
  have h := hr.1 hx
  rw [hr.2.1] at h
  exact h

/-- A non-zero integer is converted to a non-zero double. -/
theorem rnd_int_ne_zero (rnd : ℝ → ℝ) (hr : dbl.rounds_to_nearest rnd) (n : Int)
    (hn : n ≠ 0) : rnd (n : ℝ) ≠ 0 := by
  rcases lt_or_gt_of_ne hn with hneg | hpos
  · have hle : (n : ℝ) ≤ -1 := by exact_mod_cast (by omega : n ≤ -1)
    exact ne_of_lt (lt_of_le_of_lt (hr.1 hle) (rnd_neg_one_neg rnd hr))
  · have hge : (1 : ℝ) ≤ (n : ℝ) := by exact_mod_cast (by omega : 1 ≤ n)
    exact ne_of_gt (lt_of_lt_of_le (rnd_one_pos rnd hr) (hr.1 hge))

/-- For `n ≠ 0` the quotient `m / n` is finite, and the double that is converted to
`std::int32_t` is the integer `max(1, round(x))`, with `x` the product as computed. -/
theorem optimal_number_of_hash_functions_of_ne_zero (rnd ln : ℝ → ℝ)
    (hr : dbl.rounds_to_nearest rnd) (n m : Int) (hn : n ≠ 0) :
    optimal_number_of_hash_functions rnd ln n m
      = dbl.to_int32
          (dbl.fin ((max 1 (dbl.round_half_away (hash_product_computed rnd ln n m)) : Int) : ℝ))
      := by
  have h2 : (0 : ℝ) < 2 := by norm_num
  have hnr : ¬ (rnd (n : ℝ) = 0) := rnd_int_ne_zero rnd hr n hn
  simp only [optimal_number_of_hash_functions, dbl.of_int64, dbl.div, hnr, if_false, dbl.log,
    h2, if_true, dbl.mul, dbl.round, dbl.max, dbl.lt, hash_product_computed]
  congr 1
  by_cases h : (1 : ℝ)
      < (dbl.round_half_away (rnd (rnd (rnd (m : ℝ) / rnd (n : ℝ)) * ln 2)) : ℝ)
  · have hi : (1 : Int) < dbl.round_half_away (rnd (rnd (rnd (m : ℝ) / rnd (n : ℝ)) * ln 2)) := by
      exact_mod_cast h
    simp only [h, decide_True, if_true, max_eq_right (le_of_lt hi)]
  · have hi : dbl.round_half_away (rnd (rnd (rnd (m : ℝ) / rnd (n : ℝ)) * ln 2)) ≤ 1 := by
      have := not_lt.mp h
      exact_mod_cast this
    simp only [h, decide_False, Bool.false_eq_true, if_false, max_eq_left hi, Int.cast_one]

/-- The product as computed is within `2^(-49)` of the exact product, in relative terms,
for 64-bit integers `n ≠ 0` and `m`. -/
theorem hash_product_computed_close (rnd ln : ℝ → ℝ) (hr : dbl.rounds_to_nearest rnd)
    (hl : log_accurate ln) (n m : Int) (hn : n ≠ 0) (hn2 : |(n : ℝ)| ≤ 2 ^ 63)
    (hm2 : |(m : ℝ)| ≤ 2 ^ 63) :
    |hash_product_computed rnd ln n m - hash_product Real.log n m|
      ≤ 1 / 2 ^ 49 * |hash_product Real.log n m| := by
  by_cases hm : m = 0
  · subst hm
    have h0 : hash_product_computed rnd ln n 0 = 0 := by
      simp only [hash_product_computed, Int.cast_zero, hr.2.1, zero_div, zero_mul]
    have h1 : hash_product Real.log n 0 = 0 := by
      simp only [hash_product, Int.cast_zero, zero_div, zero_mul]
    rw [h0, h1]
    simp
  · have h2l := Real.log_two_gt_d9
    have h2u := Real.log_two_lt_d9
    have hn1 : (1 : ℝ) ≤ |(n : ℝ)| := by
      have h := Int.one_le_abs hn
      have h' : ((1 : Int) : ℝ) ≤ ((|n| : Int) : ℝ) := by exact_mod_cast h
      rw [Int.cast_abs] at h'
      simpa using h'
    have hm1 : (1 : ℝ) ≤ |(m : ℝ)| := by
      have h := Int.one_le_abs hm
      have h' : ((1 : Int) : ℝ) ≤ ((|m| : Int) : ℝ) := by exact_mod_cast h
      rw [Int.cast_abs] at h'
      simpa using h'
    have hnne : (n : ℝ) ≠ 0 := by exact_mod_cast hn
    -- the two conversions
    have hcm : |rnd (m : ℝ) - (m : ℝ)| ≤ 1 / 2 ^ 53 * |(m : ℝ)| :=
      hr.2.2 _ (le_trans (by norm_num) hm1) (le_trans hm2 (by norm_num))
    have hcn : |rnd (n : ℝ) - (n : ℝ)| ≤ 1 / 2 ^ 53 * |(n : ℝ)| :=
      hr.2.2 _ (le_trans (by norm_num) hn1) (le_trans hn2 (by norm_num))
    -- the quotient
    obtain ⟨_, h1⟩ := close_div _ _ _ _ _ _ hcm hcn (by positivity) (by positivity)
      (by norm_num) hnne
    have h1' := close_mono _ _ _ (3 / 2 ^ 53) h1 (by norm_num)
    have hnpos : 0 < |(n : ℝ)| := by linarith
    have hquot : |(m : ℝ) / (n : ℝ)| = |(m : ℝ)| / |(n : ℝ)| := abs_div _ _
    have hquotlo : 1 / 2 ^ 63 ≤ |(m : ℝ)| / |(n : ℝ)| := by
      rw [le_div_iff₀ hnpos]
      nlinarith
    have hquothi : |(m : ℝ)| / |(n : ℝ)| ≤ 2 ^ 63 := by
      rw [div_le_iff₀ hnpos]
      nlinarith
    have h2 := close_rnd rnd hr _ _ _ h1' (by positivity) (by norm_num)
      (by rw [hquot]; exact le_trans (by norm_num) hquotlo)
      (by rw [hquot]; exact le_trans hquothi (by norm_num))
    have h2' := close_mono _ _ _ (5 / 2 ^ 53) h2 (by norm_num)
    -- the product with `log(2.0)`
    have h3 := close_mul _ _ _ _ _ _ h2' (hl 2 (by norm_num)) (by positivity)
    have h3' := close_mono _ _ _ (8 / 2 ^ 53) h3 (by norm_num)
    have hlogabs : |Real.log 2| = Real.log 2 := abs_of_pos (by linarith)
    have hprod : |(m : ℝ) / (n : ℝ) * Real.log 2| = |(m : ℝ)| / |(n : ℝ)| * Real.log 2 := by
      rw [abs_mul, hquot, hlogabs]
    have hprodlo : 1 / 2 ^ 64 ≤ |(m : ℝ)| / |(n : ℝ)| * Real.log 2 := by
      have : (1 : ℝ) / 2 ^ 64 = 1 / 2 ^ 63 * (1 / 2) := by norm_num
      rw [this]
      exact mul_le_mul hquotlo (by linarith) (by norm_num) (le_trans (by positivity) hquotlo)
    have hprodhi : |(m : ℝ)| / |(n : ℝ)| * Real.log 2 ≤ 2 ^ 63 := by
      have hnn : 0 ≤ |(m : ℝ)| / |(n : ℝ)| := le_trans (by positivity) hquotlo
      nlinarith
    have h4 := close_rnd rnd hr _ _ _ h3' (by positivity) (by norm_num)
      (by rw [hprod]; exact le_trans (by norm_num) hprodlo)
      (by rw [hprod]; exact le_trans hprodhi (by norm_num))
    exact close_mono _ _ _ (1 / 2 ^ 49) h4 (by norm_num)

/-- The product as computed lies within `2^(-49) * |x|` of the exact product `x`. -/
theorem hash_product_computed_bounds (rnd ln : ℝ → ℝ) (hr : dbl.rounds_to_nearest rnd)
    (hl : log_accurate ln) (n m : Int) (hn : n ≠ 0) (hn2 : |(n : ℝ)| ≤ 2 ^ 63)
    (hm2 : |(m : ℝ)| ≤ 2 ^ 63) :
    hash_product Real.log n m - 1 / 2 ^ 49 * |hash_product Real.log n m|
        ≤ hash_product_computed rnd ln n m
      ∧ hash_product_computed rnd ln n m
        ≤ hash_product Real.log n m + 1 / 2 ^ 49 * |hash_product Real.log n m| := by
  obtain ⟨h1, h2⟩ := abs_le.mp (hash_product_computed_close rnd ln hr hl n m hn hn2 hm2)
  constructor <;> linarith

theorem int64_abs_le (n : Int) (hlo : -(2 : Int) ^ 63 ≤ n) (hhi : n < 2 ^ 63) :
    |(n : ℝ)| ≤ 2 ^ 63 := by
  rw [abs_le]
  constructor
  · exact_mod_cast hlo
  · exact_mod_cast le_of_lt hhi

/-- The value of `optimal_number_of_hash_functions` when the exact product is far enough
from the halves `j - 1/2` and `j + 1/2` on either side of it. -/
theorem optimal_number_of_hash_functions_value (rnd ln : ℝ → ℝ)
    (hr : dbl.rounds_to_nearest rnd) (hl : log_accurate ln) (n m : Int) (hn : n ≠ 0)
    (hn2 : |(n : ℝ)| ≤ 2 ^ 63) (hm2 : |(m : ℝ)| ≤ 2 ^ 63) (j : Int) (hj1 : 1 ≤ j)
    (hj2 : j < 2 ^ 31)
    (hlo : (j : ℝ) - 1 / 2
      ≤ hash_product Real.log n m - 1 / 2 ^ 49 * |hash_product Real.log n m|)
    (hhi : hash_product Real.log n m + 1 / 2 ^ 49 * |hash_product Real.log n m|
      < (j : ℝ) + 1 / 2) :
    optimal_number_of_hash_functions rnd ln n m = some j := by
  obtain ⟨h1, h2⟩ := hash_product_computed_bounds rnd ln hr hl n m hn hn2 hm2
  have hjr : (1 : ℝ) ≤ (j : ℝ) := by exact_mod_cast hj1
  have hx0 : 0 ≤ hash_product_computed rnd ln n m := by linarith
  have hround : dbl.round_half_away (hash_product_computed rnd ln n m) = j := by
    simp only [dbl.round_half_away, hx0, if_true]
    rw [Int.floor_eq_iff]
    constructor <;> linarith
  rw [optimal_number_of_hash_functions_of_ne_zero rnd ln hr n m hn, hround,
    max_eq_right hj1, to_int32_fin_int j hj1, if_pos hj2]

/-- C9, as stated, fails at `(n, m) = (0, 1)` and at `(n, m) = (1, 2^62)`, whatever the
rounding and the library logarithm, within the assumptions: in the first case `m / n` is
`+inf`, in the second `max(1, round(m / n * ln 2))` is at least `2^31`, and in both the
conversion to `std::int32_t` has no defined result, so no value `k ≥ 1` equal to the
formula is returned. -/
theorem optimal_number_of_hash_functions_undefined :
    (∀ rnd ln : ℝ → ℝ, dbl.rounds_to_nearest rnd → log_accurate ln →
        optimal_number_of_hash_functions rnd ln 0 1 = none
          ∧ optimal_number_of_hash_functions rnd ln 1 (2 ^ 62) = none)
      ∧ (2 : Int) ^ 31 ≤ max 1 (dbl.round_half_away (hash_product Real.log 1 (2 ^ 62))) := by
  have h2l := Real.log_two_gt_d9
  have hlogpos : (0 : ℝ) < Real.log 2 := Real.log_pos (by norm_num)
  have hx : hash_product Real.log 1 (2 ^ 62) = 2 ^ 62 * Real.log 2 := by
    unfold hash_product
    push_cast
    ring
  have hxbig : (2 : ℝ) ^ 61 ≤ hash_product Real.log 1 (2 ^ 62) := by
    rw [hx]
    norm_num at h2l ⊢
    linarith
  constructor
  · intro rnd ln hr hl
    have hlnpos : 0 < ln 2 := ln_two_pos ln hl
    have h2 : (0 : ℝ) < 2 := by norm_num
    constructor
    · simp only [optimal_number_of_hash_functions, dbl.of_int64, dbl.div, Int.cast_zero,
        Int.cast_one, hr.2.1, rnd_one_pos rnd hr, if_true, dbl.log, h2, dbl.mul, hlnpos,
        dbl.round, dbl.max, dbl.lt, dbl.to_int32]
    · obtain ⟨hlo, _⟩ := hash_product_computed_bounds rnd ln hr hl 1 (2 ^ 62) (by norm_num)
        (by norm_num) (by norm_num)
      have habs : |hash_product Real.log 1 (2 ^ 62)| = hash_product Real.log 1 (2 ^ 62) :=
        abs_of_pos (by linarith [show (0 : ℝ) < 2 ^ 61 by positivity])
      rw [habs] at hlo
      have hbig : (2 : ℝ) ^ 31 ≤ hash_product_computed rnd ln 1 (2 ^ 62) + 1 / 2 := by
        have h61 : (2 : ℝ) ^ 31 ≤ 2 ^ 61 * (1 - 1 / 2 ^ 49) := by norm_num
        have h49 : (0 : ℝ) ≤ 1 - 1 / 2 ^ 49 := by norm_num
        have hstep : (2 : ℝ) ^ 61 * (1 - 1 / 2 ^ 49)
            ≤ hash_product Real.log 1 (2 ^ 62) * (1 - 1 / 2 ^ 49) :=
          mul_le_mul_of_nonneg_right hxbig h49
        linarith
      have hx0 : 0 ≤ hash_product_computed rnd ln 1 (2 ^ 62) := by
        have : (1 : ℝ) ≤ 2 ^ 31 := by norm_num
        generalize hash_product_computed rnd ln 1 (2 ^ 62) = y at hbig ⊢
        linarith
      have hk : (2 : Int) ^ 31
          ≤ max 1 (dbl.round_half_away (hash_product_computed rnd ln 1 (2 ^ 62))) := by
        apply le_max_of_le_right
        simp only [dbl.round_half_away, hx0, if_true]
        rw [Int.le_floor]
        exact_mod_cast hbig
      rw [optimal_number_of_hash_functions_of_ne_zero rnd ln hr 1 (2 ^ 62) (by norm_num),
        to_int32_fin_int _ (le_max_left _ _), if_neg (not_lt.mpr hk)]
  · apply le_max_of_le_right
    have hx0 : 0 ≤ hash_product Real.log 1 (2 ^ 62) :=
      le_trans (by positivity) hxbig
    simp only [dbl.round_half_away, hx0, if_true]
    rw [Int.le_floor]
    have h31 : (((2 : Int) ^ 31 : Int) : ℝ) = 2 ^ 31 := by norm_num
    have : (2 : ℝ) ^ 31 ≤ 2 ^ 61 := by norm_num
    rw [h31]
    generalize hash_product Real.log 1 (2 ^ 62) = y at hxbig ⊢
    linarith

/-- C9, amended. Let `n` and `m` be 64-bit signed integers and `x = m / n * ln 2`.  For
`n ≠ 0` with `x + 2^(-49) * |x| + 1/2 < 2^31`, `optimal_number_of_hash_functions(n, m)`
returns `k = max(1, round(y))` as a 32-bit signed integer, where `y` is the product as it
is evaluated in binary64, a value within `2^(-49) * |x|` of `x`; `k` is at least 1, and
`k = j = max(1, round(x))` whenever `j ≥ 1` and `x` is further than `2^(-49) * |x|` from
`j - 1/2` and from `j + 1/2`.  For `n = 0` and `m ≤ 0` it returns 1. -/
theorem optimal_number_of_hash_functions_rounds (rnd ln : ℝ → ℝ)
    (hr : dbl.rounds_to_nearest rnd) (hl : log_accurate ln) (n m : Int)
    (hn_lo : -(2 : Int) ^ 63 ≤ n) (hn_hi : n < 2 ^ 63)
    (hm_lo : -(2 : Int) ^ 63 ≤ m) (hm_hi : m < 2 ^ 63) :
    (n ≠ 0 →
        hash_product Real.log n m + 1 / 2 ^ 49 * |hash_product Real.log n m| + 1 / 2 < 2 ^ 31 →
        optimal_number_of_hash_functions rnd ln n m
            = some (max 1 (dbl.round_half_away (hash_product_computed rnd ln n m)))
          ∧ |hash_product_computed rnd ln n m - hash_product Real.log n m|
              ≤ 1 / 2 ^ 49 * |hash_product Real.log n m|
          ∧ 1 ≤ max 1 (dbl.round_half_away (hash_product_computed rnd ln n m))
          ∧ (∀ j : Int, 1 ≤ j →
              (j : ℝ) - 1 / 2
                ≤ hash_product Real.log n m - 1 / 2 ^ 49 * |hash_product Real.log n m| →
              hash_product Real.log n m + 1 / 2 ^ 49 * |hash_product Real.log n m|
                < (j : ℝ) + 1 / 2 →
              optimal_number_of_hash_functions rnd ln n m = some j
                ∧ max 1 (dbl.round_half_away (hash_product Real.log n m)) = j))
      ∧ (n = 0 → m ≤ 0 → optimal_number_of_hash_functions rnd ln n m = some 1) := by
  have hn2 := int64_abs_le n hn_lo hn_hi
  have hm2 := int64_abs_le m hm_lo hm_hi
  constructor
  · intro hn hrange
    obtain ⟨hlo, hhi⟩ := hash_product_computed_bounds rnd ln hr hl n m hn hn2 hm2
    have hk : max 1 (dbl.round_half_away (hash_product_computed rnd ln n m)) < 2 ^ 31 := by
      apply max_lt (by norm_num)
      by_cases hx0 : 0 ≤ hash_product_computed rnd ln n m
      · simp only [dbl.round_half_away, hx0, if_true]
        rw [Int.floor_lt]
        push_cast
        linarith
      · simp only [dbl.round_half_away, hx0, if_false]
        have hceil : ⌈hash_product_computed rnd ln n m - 1 / 2⌉ ≤ 0 := by
          rw [Int.ceil_le]
          push_cast
          linarith [not_le.mp hx0]
        exact lt_of_le_of_lt hceil (by norm_num)
    refine ⟨?_, hash_product_computed_close rnd ln hr hl n m hn hn2 hm2,
      le_max_left _ _, ?_⟩
    · rw [optimal_number_of_hash_functions_of_ne_zero rnd ln hr n m hn,
        to_int32_fin_int _ (le_max_left _ _), if_pos hk]
    · intro j hj1 hjlo hjhi
      have hjr : (1 : ℝ) ≤ (j : ℝ) := by exact_mod_cast hj1
      have habsnn := abs_nonneg (hash_product Real.log n m)
      have h49 : (0 : ℝ) ≤ 1 / 2 ^ 49 := by positivity
      have hj2 : j < 2 ^ 31 := by
        have : (j : ℝ) < 2 ^ 31 := by nlinarith
        exact_mod_cast this
      refine ⟨optimal_number_of_hash_functions_value rnd ln hr hl n m hn hn2 hm2 j hj1 hj2
        hjlo hjhi, ?_⟩
      have hx0 : 0 ≤ hash_product Real.log n m := by nlinarith
      have hround : dbl.round_half_away (hash_product Real.log n m) = j := by
        simp only [dbl.round_half_away, hx0, if_true]
        rw [Int.floor_eq_iff]
        constructor <;> nlinarith
      rw [hround, max_eq_right hj1]
  · intro hn hm
    subst hn
    have hlnpos : 0 < ln 2 := ln_two_pos ln hl
    have h2 : (0 : ℝ) < 2 := by norm_num
    have hmr : (m : ℝ) ≤ 0 := by exact_mod_cast hm
    have hrm : ¬ (0 < rnd (m : ℝ)) := not_lt.mpr (rnd_nonpos rnd hr _ hmr)
    have h1 : dbl.to_int32 (dbl.fin (1 : ℝ)) = some 1 := by
      have h := to_int32_fin_int 1 (le_refl 1)
      rw [Int.cast_one] at h
      rw [h]
      rfl
    by_cases hneg : rnd (m : ℝ) < 0
    · simp only [optimal_number_of_hash_functions, dbl.of_int64, dbl.div, Int.cast_zero,
        hr.2.1, if_true, hrm, if_false, hneg, dbl.log, h2, dbl.mul, hlnpos, dbl.round,
        dbl.max, dbl.lt, Bool.false_eq_true, h1]
    · simp only [optimal_number_of_hash_functions, dbl.of_int64, dbl.div, Int.cast_zero,
        hr.2.1, if_true, hrm, if_false, hneg, dbl.log, h2, dbl.mul, dbl.round,
        dbl.max, dbl.lt, Bool.false_eq_true, h1]

/-- An instance of the amended C9, in exact arithmetic: 100 expected insertions and 958
bits give 7 probes, the product being about 6.64. -/
theorem optimal_number_of_hash_functions_rounds_witness :
    dbl.rounds_to_nearest (id : ℝ → ℝ) ∧ log_accurate Real.log
      ∧ -(2 : Int) ^ 63 ≤ 100 ∧ (100 : Int) < 2 ^ 63
      ∧ -(2 : Int) ^ 63 ≤ 958 ∧ (958 : Int) < 2 ^ 63
      ∧ (100 : Int) ≠ 0
      ∧ hash_product Real.log 100 958 + 1 / 2 ^ 49 * |hash_product Real.log 100 958| + 1 / 2
          < 2 ^ 31
      ∧ optimal_number_of_hash_functions id Real.log 100 958 = some 7 :=
  have hxb : (6.64 : ℝ) < hash_product Real.log 100 958
      ∧ hash_product Real.log 100 958 < 6.65 := by
    have h2l := Real.log_two_gt_d9
    have h2u := Real.log_two_lt_d9
    unfold hash_product
    push_cast
    norm_num at h2l h2u ⊢
    constructor <;> linarith
  have habs : |hash_product Real.log 100 958| = hash_product Real.log 100 958 :=
    abs_of_pos (by linarith [hxb.1])
  have hrange : hash_product Real.log 100 958
      + 1 / 2 ^ 49 * |hash_product Real.log 100 958| + 1 / 2 < 2 ^ 31 := by
    rw [habs]
    have h49 : (1 : ℝ) / 2 ^ 49 ≤ 1 := by norm_num
    nlinarith [hxb.1, hxb.2]
  ⟨rounds_to_nearest_id, log_accurate_exact, by norm_num, by norm_num, by norm_num,
    by norm_num, by norm_num, hrange,
    (((optimal_number_of_hash_functions_rounds id Real.log rounds_to_nearest_id
      log_accurate_exact 100 958 (by norm_num) (by norm_num) (by norm_num) (by norm_num)).1
      (by norm_num) hrange).2.2.2 7 (by norm_num)
      (by rw [habs]; norm_num; nlinarith [hxb.1, hxb.2])
      (by rw [habs]; norm_num; nlinarith [hxb.1, hxb.2])).1⟩

/-! ## Parameter sizing: monotonicity of the number of bits -/

theorem to_size_t_mono (x y : ℝ) (hx : 0 ≤ x) (hxy : x ≤ y) (b : Nat)
    (h : dbl.to_size_t (dbl.fin y) = some b) :
    ∃ a, dbl.to_size_t (dbl.fin x) = some a ∧ a ≤ b := by
  by_cases hy : y < 2 ^ 64
  · rw [to_size_t_fin y (by linarith) hy] at h
    have hb : ⌊y⌋₊ = b := Option.some.inj h
    refine ⟨⌊x⌋₊, to_size_t_fin x (by linarith) (by linarith), ?_⟩
    rw [← hb]
    exact Nat.floor_mono hxy
  · simp only [dbl.to_size_t, hy, and_false, if_false] at h
    exact absurd h (by simp)

/-- The library logarithm of a positive double up to 1 is not positive. -/
theorem ln_nonpos (ln : ℝ → ℝ) (hl : log_accurate ln) (p : ℝ) (hp0 : 0 < p) (hp1 : p ≤ 1) :
    ln p ≤ 0 := by
  have h := hl p hp0
  have hlog : Real.log p ≤ 0 := Real.log_nonpos (le_of_lt hp0) hp1
  rw [abs_of_nonpos hlog] at h
  have h' := (abs_le.mp h).2
  have hsmall : (1 : ℝ) / 2 ^ 52 * -Real.log p ≤ 1 * -Real.log p :=
    mul_le_mul_of_nonneg_right (by norm_num) (by linarith)
  linarith

/-- The quotient as computed grows with `n ≥ 0` and with the magnitude of a non-positive
library logarithm, and is not negative. -/
theorem bits_quotient_computed_mono (rnd ln : ℝ → ℝ) (hr : dbl.rounds_to_nearest rnd)
    (hl : log_accurate ln) (n1 n2 : Int) (e1 e2 : ℝ) (hn1 : 0 ≤ n1) (hn : n1 ≤ n2)
    (hln : ln e2 ≤ ln e1) (hln1 : ln e1 ≤ 0) :
    0 ≤ bits_quotient_computed rnd ln n1 e1
      ∧ bits_quotient_computed rnd ln n1 e1 ≤ bits_quotient_computed rnd ln n2 e2 := by
  obtain ⟨_, hD⟩ := denominator_close rnd ln hr hl
  have hn1r : (((-n1 : Int) : ℝ)) ≤ 0 := by exact_mod_cast (by omega : -n1 ≤ 0)
  have hnr : (((-n2 : Int) : ℝ)) ≤ (((-n1 : Int) : ℝ)) := by
    exact_mod_cast (by omega : -n2 ≤ -n1)
  have ha1 : rnd ((-n1 : Int) : ℝ) ≤ 0 := rnd_nonpos rnd hr _ hn1r
  have ha : rnd ((-n2 : Int) : ℝ) ≤ rnd ((-n1 : Int) : ℝ) := hr.1 hnr
  have hprod0 : 0 ≤ rnd ((-n1 : Int) : ℝ) * ln e1 := mul_nonneg_of_nonpos_of_nonpos ha1 hln1
  have hprod : rnd ((-n1 : Int) : ℝ) * ln e1 ≤ rnd ((-n2 : Int) : ℝ) * ln e2 := by
    nlinarith
  have hr0 : 0 ≤ rnd (rnd ((-n1 : Int) : ℝ) * ln e1) := rnd_nonneg rnd hr _ hprod0
  have hrm : rnd (rnd ((-n1 : Int) : ℝ) * ln e1) ≤ rnd (rnd ((-n2 : Int) : ℝ) * ln e2) :=
    hr.1 hprod
  constructor
  · exact rnd_nonneg rnd hr _ (div_nonneg hr0 (le_of_lt hD))
  · exact hr.1 (div_le_div_of_nonneg_right hrm (le_of_lt hD))

theorem optimal_number_of_bits_mono_core (rnd ln : ℝ → ℝ) (hr : dbl.rounds_to_nearest rnd)
    (hl : log_accurate ln) (n1 n2 : Int) (e1 e2 : ℝ) (hn1 : 0 ≤ n1) (hn : n1 ≤ n2)
    (he2 : 0 < e2) (he1 : 0 < e1) (he1' : e1 ≤ 1) (hln : ln e2 ≤ ln e1) (b2 : Nat)
    (h : optimal_number_of_bits rnd ln n2 (dbl.fin e2) = some b2) :
    ∃ b1, optimal_number_of_bits rnd ln n1 (dbl.fin e1) = some b1 ∧ b1 ≤ b2 := by
  have hne : ∀ n : Int, 0 ≤ n → n ≠ -(2 : Int) ^ 63 := by
    intro n h0 h
    rw [h] at h0
    norm_num at h0
  obtain ⟨h0, hmono⟩ := bits_quotient_computed_mono rnd ln hr hl n1 n2 e1 e2 hn1 hn hln
    (ln_nonpos ln hl e1 he1 he1')
  rw [optimal_number_of_bits_of_pos rnd ln hr hl n2 e2 (hne n2 (le_trans hn1 hn)) he2] at h
  rw [optimal_number_of_bits_of_pos rnd ln hr hl n1 e1 (hne n1 hn1) he1]
  exact to_size_t_mono _ _ h0 hmono b2 h

theorem DBL_MIN_pos : (0 : ℝ) < dbl.DBL_MIN := by
  unfold dbl.DBL_MIN
  positivity

theorem DBL_MIN_le_one : (dbl.DBL_MIN : ℝ) ≤ 1 := by
  unfold dbl.DBL_MIN
  rw [div_le_one (by positivity)]
  exact one_le_pow₀ (by norm_num)

theorem bits_quotient_inv_two_pow (n : Int) (k : Nat) :
    bits_quotient Real.log n (1 / 2 ^ k) = (n : ℝ) * k / Real.log 2 := by
  have hpos : (0 : ℝ) < Real.log 2 := Real.log_pos (by norm_num)
  unfold bits_quotient
  rw [one_div, Real.log_inv, Real.log_pow]
  field_simp
  ring

/-- The value of `optimal_number_of_bits` at `p = 2^(-j)`, where the exact quotient is
`n * j / ln 2`, when that quotient is at least `1/1000` away from the integers `k` and
`k + 1` on either side of it and below `2^32`. -/
theorem optimal_number_of_bits_inv_two_pow (rnd ln : ℝ → ℝ) (hr : dbl.rounds_to_nearest rnd)
    (hl : log_accurate ln) (n : Int) (j k : Nat) (hn1 : 1 ≤ n) (hn2 : n < 2 ^ 63)
    (hj1 : 1 ≤ j) (hj2 : j ≤ 1074)
    (hlo : ((k : ℝ) + 1 / 1000) * Real.log 2 ≤ (n : ℝ) * j)
    (hhi : (n : ℝ) * j ≤ ((k : ℝ) + 1 - 1 / 1000) * Real.log 2)
    (hk : (k : ℝ) + 1 ≤ 2 ^ 32) :
    optimal_number_of_bits rnd ln n (dbl.fin (1 / 2 ^ j)) = some k := by
  have hpos : (0 : ℝ) < Real.log 2 := Real.log_pos (by norm_num)
  have hk0 : (0 : ℝ) ≤ (k : ℝ) := Nat.cast_nonneg k
  have hp0 : (1 : ℝ) / 2 ^ 1074 ≤ 1 / 2 ^ j :=
    one_div_le_one_div_of_le (by positivity) (pow_le_pow_right₀ (by norm_num) hj2)
  have hp1 : (1 : ℝ) / 2 ^ j ≤ 1 - 1 / 2 ^ 53 := by
    have h2 : (1 : ℝ) / 2 ^ j ≤ 1 / 2 ^ 1 :=
      one_div_le_one_div_of_le (by positivity) (pow_le_pow_right₀ (by norm_num) hj1)
    exact le_trans h2 (by norm_num)
  have hq1 : (k : ℝ) + 1 / 1000 ≤ bits_quotient Real.log n (1 / 2 ^ j) := by
    rw [bits_quotient_inv_two_pow, le_div_iff₀ hpos]
    exact hlo
  have hq2 : bits_quotient Real.log n (1 / 2 ^ j) ≤ (k : ℝ) + 1 - 1 / 1000 := by
    rw [bits_quotient_inv_two_pow, div_le_iff₀ hpos]
    exact hhi
  have hq0 : 0 ≤ bits_quotient Real.log n (1 / 2 ^ j) := by linarith
  have herr : 1 / 2 ^ 49 * bits_quotient Real.log n (1 / 2 ^ j) ≤ 1 / 1000 := by
    have h1 : 1 / 2 ^ 49 * bits_quotient Real.log n (1 / 2 ^ j) ≤ 1 / 2 ^ 49 * (2 : ℝ) ^ 32 :=
      mul_le_mul_of_nonneg_left (by linarith) (by positivity)
    exact le_trans h1 (by norm_num)
  apply optimal_number_of_bits_value rnd ln hr hl n _ hn1 hn2 hp0 hp1 k
  · linarith
  · linarith

/-- C10, as stated, fails in `p` at `n = 1`, `p1 = 0`, `p2 = 2^(-1074)` (the smallest
positive double), whatever the rounding and the library logarithm, within the assumptions:
`p1 ≤ p2`, and yet the function returns 1474 at `p1`, where it computes with
`DBL_MIN = 2^(-1022)`, and 1549 at `p2`. -/
theorem optimal_number_of_bits_not_antitone :
    (0 : ℝ) ≤ 1 / 2 ^ 1074
      ∧ (∀ rnd ln : ℝ → ℝ, dbl.rounds_to_nearest rnd → log_accurate ln →
          optimal_number_of_bits rnd ln 1 (dbl.fin 0) = some 1474
            ∧ optimal_number_of_bits rnd ln 1 (dbl.fin (1 / 2 ^ 1074)) = some 1549)
      ∧ ¬ (1474 ≥ 1549) := by
  have h2l := Real.log_two_gt_d9
  have h2u := Real.log_two_lt_d9
  refine ⟨by positivity, ?_, by decide⟩
  intro rnd ln hr hl
  constructor
  · rw [optimal_number_of_bits_of_zero]
    unfold dbl.DBL_MIN
    apply optimal_number_of_bits_inv_two_pow rnd ln hr hl 1 1022 1474 (by norm_num)
      (by norm_num) (by norm_num) (by norm_num)
    · push_cast; norm_num at h2l h2u ⊢; linarith
    · push_cast; norm_num at h2l h2u ⊢; linarith
    · norm_num
  · apply optimal_number_of_bits_inv_two_pow rnd ln hr hl 1 1074 1549 (by norm_num)
      (by norm_num) (by norm_num) (by norm_num)
    · push_cast; norm_num at h2l h2u ⊢; linarith
    · push_cast; norm_num at h2l h2u ⊢; linarith
    · norm_num

/-- C10, amended. In binary64 arithmetic that rounds to nearest, with a library logarithm
that is accurate and monotone, and whenever the larger of the two results is defined (its
computed quotient is below `2^64`), so is the smaller, and: for `0 ≤ p ≤ 1`,
`optimal_number_of_bits n p` is non-decreasing in `n` over `n ≥ 0`; for `n ≥ 0` it is
non-increasing in `p` over `0 ≤ p1 ≤ p2 ≤ 1` provided `p1 > 0` or `p2 ≥ DBL_MIN`.  (For
`n < 0` or `p > 1` the quotient is negative: see `optimal_number_of_bits_negative`.) -/
theorem optimal_number_of_bits_monotone (rnd ln : ℝ → ℝ) (hr : dbl.rounds_to_nearest rnd)
    (hl : log_accurate ln) (hm : log_monotone ln) :
    (∀ (n1 n2 : Int) (p : ℝ), 0 ≤ n1 → n1 ≤ n2 → 0 ≤ p → p ≤ 1 →
        ∀ b2, optimal_number_of_bits rnd ln n2 (dbl.fin p) = some b2 →
          ∃ b1, optimal_number_of_bits rnd ln n1 (dbl.fin p) = some b1 ∧ b1 ≤ b2)
      ∧ (∀ (n : Int) (p1 p2 : ℝ), 0 ≤ n → 0 ≤ p1 → p1 ≤ p2 → p2 ≤ 1 →
          (0 < p1 ∨ dbl.DBL_MIN ≤ p2) →
          ∀ b1, optimal_number_of_bits rnd ln n (dbl.fin p1) = some b1 →
            ∃ b2, optimal_number_of_bits rnd ln n (dbl.fin p2) = some b2 ∧ b2 ≤ b1) := by
  constructor
  · intro n1 n2 p hn1 hn hp0 hp1 b2 h
    rcases eq_or_lt_of_le hp0 with hz | hpos
    · rw [← hz] at h ⊢
      rw [optimal_number_of_bits_of_zero] at h ⊢
      exact optimal_number_of_bits_mono_core rnd ln hr hl n1 n2 _ _ hn1 hn DBL_MIN_pos
        DBL_MIN_pos DBL_MIN_le_one (le_refl _) b2 h
    · exact optimal_number_of_bits_mono_core rnd ln hr hl n1 n2 p p hn1 hn hpos hpos hp1
        (le_refl _) b2 h
  · intro n p1 p2 hn hp0 hp hp1 hor b1 h
    rcases eq_or_lt_of_le hp0 with hz | hpos
    · have hmin : dbl.DBL_MIN ≤ p2 := by
        rcases hor with h1 | h2
        · rw [← hz] at h1
          exact absurd h1 (lt_irrefl _)
        · exact h2
      rw [← hz, optimal_number_of_bits_of_zero] at h
      exact optimal_number_of_bits_mono_core rnd ln hr hl n n p2 _ hn (le_refl _) DBL_MIN_pos
        (lt_of_lt_of_le DBL_MIN_pos hmin) hp1 (hm _ _ DBL_MIN_pos hmin) b1 h
    · exact optimal_number_of_bits_mono_core rnd ln hr hl n n p2 p1 hn (le_refl _) hpos
        (lt_of_lt_of_le hpos hp) hp1 (hm _ _ hpos hp) b1 h

/-- An instance of the amended C10, in exact arithmetic: from `n = 1` to `n = 2` at
`p = 1/2`, and from `p = 1/4` to `p = 1/2` at `n = 1`; the larger result is 2 in both. -/
theorem optimal_number_of_bits_monotone_witness :
    dbl.rounds_to_nearest (id : ℝ → ℝ) ∧ log_accurate Real.log ∧ log_monotone Real.log
      ∧ (optimal_number_of_bits id Real.log 2 (dbl.fin (1 / 2 ^ 1)) = some 2
        ∧ ∃ b1, optimal_number_of_bits id Real.log 1 (dbl.fin (1 / 2 ^ 1)) = some b1 ∧ b1 ≤ 2)
      ∧ (optimal_number_of_bits id Real.log 1 (dbl.fin (1 / 2 ^ 2)) = some 2
        ∧ ∃ b2, optimal_number_of_bits id Real.log 1 (dbl.fin (1 / 2 ^ 1)) = some b2
            ∧ b2 ≤ 2) :=
  have h2l := Real.log_two_gt_d9
  have h2u := Real.log_two_lt_d9
  have ha : optimal_number_of_bits id Real.log 2 (dbl.fin (1 / 2 ^ 1)) = some 2 := by
    apply optimal_number_of_bits_inv_two_pow id Real.log rounds_to_nearest_id
      log_accurate_exact 2 1 2 (by norm_num) (by norm_num) (by norm_num) (by norm_num)
    · push_cast; norm_num at h2l h2u ⊢; linarith
    · push_cast; norm_num at h2l h2u ⊢; linarith
    · norm_num
  have hb : optimal_number_of_bits id Real.log 1 (dbl.fin (1 / 2 ^ 2)) = some 2 := by
    apply optimal_number_of_bits_inv_two_pow id Real.log rounds_to_nearest_id
      log_accurate_exact 1 2 2 (by norm_num) (by norm_num) (by norm_num) (by norm_num)
    · push_cast; norm_num at h2l h2u ⊢; linarith
    · push_cast; norm_num at h2l h2u ⊢; linarith
    · norm_num
  ⟨rounds_to_nearest_id, log_accurate_exact, log_monotone_exact,
    ⟨ha, (optimal_number_of_bits_monotone id Real.log rounds_to_nearest_id log_accurate_exact
      log_monotone_exact).1 1 2 (1 / 2 ^ 1) (by decide) (by decide)
      (by positivity) (by norm_num) 2 ha⟩,
    ⟨hb, (optimal_number_of_bits_monotone id Real.log rounds_to_nearest_id log_accurate_exact
      log_monotone_exact).2 1 (1 / 2 ^ 2) (1 / 2 ^ 1) (by decide)
      (by positivity) (by norm_num) (by norm_num) (Or.inl (by positivity)) 2 hb⟩⟩

/-! ## Inputs outside the range of the conversion to `std::size_t` -/

/-- For a positive `p` whose computed quotient is not in the open interval from -1 to
`2^64`, the conversion to `std::size_t` has no defined result. -/
theorem optimal_number_of_bits_out_of_range (rnd ln : ℝ → ℝ) (hr : dbl.rounds_to_nearest rnd)
    (hl : log_accurate ln) (n : Int) (p : ℝ) (hn : n ≠ -(2 : Int) ^ 63) (hp : 0 < p)
    (hq : bits_quotient_computed rnd ln n p ≤ -1
      ∨ 2 ^ 64 ≤ bits_quotient_computed rnd ln n p) :
    optimal_number_of_bits rnd ln n (dbl.fin p) = none := by
  rw [optimal_number_of_bits_of_pos rnd ln hr hl n p hn hp]
  have hnot : ¬ (-1 < bits_quotient_computed rnd ln n p
      ∧ bits_quotient_computed rnd ln n p < 2 ^ 64) := by
    rintro ⟨h1, h2⟩
    rcases hq with h | h
    · exact absurd h1 (not_lt.mpr h)
    · exact absurd h2 (not_lt.mpr h)
  simp only [dbl.to_size_t, hnot, if_false]

/-- With `n = 2^62` and `p = 2^(-1000)`, inside the domain `n ≥ 1`, `0 < p < 1`, the
quotient exceeds `2^64`. -/
theorem optimal_number_of_bits_large (rnd ln : ℝ → ℝ) (hr : dbl.rounds_to_nearest rnd)
    (hl : log_accurate ln) :
    optimal_number_of_bits rnd ln (2 ^ 62) (dbl.fin (1 / 2 ^ 1000)) = none := by
  have h2u := Real.log_two_lt_d9
  have hpos : (0 : ℝ) < Real.log 2 := Real.log_pos (by norm_num)
  have hq : (2 : ℝ) ^ 65 ≤ bits_quotient Real.log (2 ^ 62) (1 / 2 ^ 1000) := by
    rw [bits_quotient_inv_two_pow, le_div_iff₀ hpos]
    push_cast
    norm_num at h2u ⊢
    linarith
  obtain ⟨hlo, _⟩ := bits_quotient_computed_bounds rnd ln hr hl (2 ^ 62) (1 / 2 ^ 1000)
    (by norm_num) (by norm_num) (by norm_num) (by norm_num)
  apply optimal_number_of_bits_out_of_range rnd ln hr hl _ _ (by norm_num) (by positivity)
  right
  have h49 : (0 : ℝ) ≤ 1 - 1 / 2 ^ 49 := by norm_num
  have hstep : (2 : ℝ) ^ 65 * (1 - 1 / 2 ^ 49)
      ≤ bits_quotient Real.log (2 ^ 62) (1 / 2 ^ 1000) * (1 - 1 / 2 ^ 49) :=
    mul_le_mul_of_nonneg_right hq h49
  have hnum : (2 : ℝ) ^ 64 ≤ 2 ^ 65 * (1 - 1 / 2 ^ 49) := by norm_num
  generalize bits_quotient Real.log (2 ^ 62) (1 / 2 ^ 1000) = q at hlo hstep
  generalize bits_quotient_computed rnd ln (2 ^ 62) (1 / 2 ^ 1000) = c at hlo ⊢
  linarith

/-- With `p = 2 > 1` the quotient at `n = 1` is below -1, and with `n = -1` so is the
quotient at `p = 1/2`: neither is a `std::size_t`. -/
theorem optimal_number_of_bits_negative (rnd ln : ℝ → ℝ) (hr : dbl.rounds_to_nearest rnd)
    (hl : log_accurate ln) :
    optimal_number_of_bits rnd ln 1 (dbl.fin 2) = none
      ∧ optimal_number_of_bits rnd ln (-1) (dbl.fin (1 / 2 ^ 1)) = none := by
  have h2u := Real.log_two_lt_d9
  have h2l := Real.log_two_gt_d9
  have hpos : (0 : ℝ) < Real.log 2 := Real.log_pos (by norm_num)
  have hlogabs : |Real.log 2| = Real.log 2 := abs_of_pos hpos
  have hq1 : bits_quotient Real.log 1 2 = -(1 / Real.log 2) := by
    unfold bits_quotient
    field_simp
    ring
  have hq2 : bits_quotient Real.log (-1) (1 / 2 ^ 1) = -(1 / Real.log 2) := by
    rw [bits_quotient_inv_two_pow]
    push_cast
    ring
  have hinv : (1.4 : ℝ) ≤ 1 / Real.log 2 ∧ 1 / Real.log 2 ≤ 1.5 := by
    rw [le_div_iff₀ hpos, div_le_iff₀ hpos]
    norm_num at h2l h2u ⊢
    constructor <;> linarith
  have hfrom : ∀ c : ℝ, |c - -(1 / Real.log 2)| ≤ 1 / 2 ^ 49 * |(-(1 / Real.log 2))| →
      c ≤ -1 := by
    intro c hc
    rw [abs_neg, abs_of_pos (by linarith [hinv.1] : (0 : ℝ) < 1 / Real.log 2)] at hc
    have h' := (abs_le.mp hc).2
    have h49 : (1 : ℝ) / 2 ^ 49 * (1 / Real.log 2) ≤ 1 / 10 := by
      have : (1 : ℝ) / 2 ^ 49 * (1 / Real.log 2) ≤ 1 / 2 ^ 49 * 1.5 :=
        mul_le_mul_of_nonneg_left hinv.2 (by positivity)
      exact le_trans this (by norm_num)
    linarith [hinv.1]
  constructor
  · apply optimal_number_of_bits_out_of_range rnd ln hr hl _ _ (by norm_num) (by norm_num)
    left
    have hc := bits_quotient_computed_close_of_log rnd ln hr hl 1 2
      (by norm_num) (by norm_num) (by norm_num)
      (by rw [hlogabs]; exact le_trans (by norm_num) (le_of_lt h2l))
      (by rw [hlogabs]; exact le_trans (le_of_lt h2u) (by norm_num))
    rw [hq1] at hc
    exact hfrom _ hc
  · apply optimal_number_of_bits_out_of_range rnd ln hr hl _ _ (by norm_num) (by positivity)
    left
    have hlog : Real.log ((1 : ℝ) / 2 ^ 1) = -Real.log 2 := by
      rw [pow_one, one_div, Real.log_inv]
    have hc := bits_quotient_computed_close_of_log rnd ln hr hl (-1) (1 / 2 ^ 1)
      (by norm_num) (by norm_num) (by positivity)
      (by rw [hlog, abs_neg, hlogabs]; exact le_trans (by norm_num) (le_of_lt h2l))
      (by rw [hlog, abs_neg, hlogabs]; exact le_trans (le_of_lt h2u) (by norm_num))
    rw [hq2] at hc
    exact hfrom _ hc

/-! ## Copy, move, and the frame of `add` -/

theorem getElem?_eq_of_getD (l1 l2 : List Bool) (hl : l1.length = l2.length) (j : Nat)
    (h : l1.getD j false = l2.getD j false) : l1[j]? = l2[j]? := by
  by_cases hj : j < l2.length
  · rw [List.getD_eq_getElem?_getD, List.getD_eq_getElem?_getD] at h
    rw [List.getElem?_eq_getElem (by rw [hl]; exact hj)] at h ⊢
    rw [List.getElem?_eq_getElem hj] at h ⊢
    simp only [Option.getD_some] at h
    rw [h]
  · rw [List.getElem?_eq_none (by rw [hl]; exact Nat.le_of_not_lt hj),
      List.getElem?_eq_none (Nat.le_of_not_lt hj)]

theorem bits_ext (l1 l2 : List Bool) (hl : l1.length = l2.length)
    (h : ∀ j, l1.getD j false = l2.getD j false) : l1 = l2 :=
  List.ext_getElem? (fun j => getElem?_eq_of_getD l1 l2 hl j (h j))

theorem add_dst_spec {T : Type} (hash : T → Nat × Nat) (vs : List T) (s : objects)
    (hm : 0 < s.dst.bits.length) (hk : 0 ≤ s.dst.number_of_hash_functions) :
    ∃ s', objects.add_dst hash s vs = some s' ∧ s'.src = s.src := by
  induction vs generalizing s with
  | nil => exact ⟨s, rfl, rfl⟩
  | cons w vs ih =>
    obtain ⟨bits', hadd, hl, _⟩ := add_spec hash s.dst w hm hk
    obtain ⟨s', hrun, hsrc⟩ :=
      ih { s with dst := ⟨bits', s.dst.number_of_hash_functions⟩ } (by rw [hl]; exact hm) hk
    exact ⟨s', by simp only [objects.add_dst, hadd, hrun], hsrc⟩

theorem add_dst_src {T : Type} (hash : T → Nat × Nat) (vs : List T) (s s' : objects)
    (h : objects.add_dst hash s vs = some s') : s'.src = s.src := by
  induction vs generalizing s with
  | nil =>
    simp only [objects.add_dst, Option.some.injEq] at h
    rw [← h]
  | cons w vs ih =>
    simp only [objects.add_dst] at h
    cases hadd : add hash s.dst w with
    | none => simp [hadd] at h
    | some res =>
      rw [hadd] at h
      exact ih { s with dst := res.2 } h

/-- C13. Move transfer: the destination of a move, by the move constructor or by the move
assignment operator, is the filter that the source was, bits and probe count, so `exists`
and `add` return on it what they return on the source before the move; and the source is
left with a probe count of 0. -/
theorem move_transfer {T : Type} (hash : T → Nat × Nat) (residue : List Bool) (uninit : Int)
    (self f1 : bloom_filter) (v : T) :
    (move_construct residue uninit f1).1 = f1
      ∧ (move_assign residue self f1).1 = f1
      ∧ «exists» hash (move_construct residue uninit f1).1 v = «exists» hash f1 v
      ∧ add hash (move_construct residue uninit f1).1 v = add hash f1 v
      ∧ (move_construct residue uninit f1).2.number_of_hash_functions = 0
      ∧ (move_assign residue self f1).2.number_of_hash_functions = 0 := by
  have h1 : (move_construct residue uninit f1).1 = f1 := rfl
  refine ⟨h1, rfl, ?_, ?_, rfl, rfl⟩
  · rw [h1]
  · rw [h1]

/-- C14. Copy independence: the copy of `f1` is the filter `f1` (same bits, same probe
count), so `exists` and `add` return on it what they return on `f1`; and after any
sequence of `add` calls on the copy the source object is still `f1`, so that `exists`
answers on it as before.  On a filter with `m ≥ 1` and `k ≥ 1` such a sequence of calls
does return. -/
theorem copy_independent {T : Type} (hash : T → Nat × Nat) (uninit : Int)
    (self f1 : bloom_filter) (vs : List T) :
    (objects.copy uninit f1).dst = f1
      ∧ copy_assign self f1 = f1
      ∧ (∀ v, «exists» hash (objects.copy uninit f1).dst v = «exists» hash f1 v)
      ∧ (∀ v, add hash (objects.copy uninit f1).dst v = add hash f1 v)
      ∧ (∀ s, objects.add_dst hash (objects.copy uninit f1) vs = some s →
          s.src = f1 ∧ ∀ v, «exists» hash s.src v = «exists» hash f1 v)
      ∧ (1 ≤ f1.bits.length → 1 ≤ f1.number_of_hash_functions →
          ∃ s, objects.add_dst hash (objects.copy uninit f1) vs = some s ∧ s.src = f1) := by
  have h1 : (objects.copy uninit f1).dst = f1 := rfl
  refine ⟨h1, rfl, fun v => by rw [h1], fun v => by rw [h1], ?_, ?_⟩
  · intro s hs
    have hsrc : s.src = f1 := add_dst_src hash vs _ s hs
    exact ⟨hsrc, fun v => by rw [hsrc]⟩
  · intro hm hk
    exact add_dst_spec hash vs (objects.copy uninit f1) (by rw [h1]; exact hm)
      (by rw [h1]; omega)

/-- An instance of C14: a filter with one bit set is copied and 5 and 7 are added to the
copy. -/
theorem copy_independent_witness :
    1 ≤ (bloom_filter.mk [true, false, false] 2).bits.length
      ∧ 1 ≤ (bloom_filter.mk [true, false, false] 2).number_of_hash_functions
      ∧ objects.add_dst (fun n : Nat => (n, 1)) (objects.copy 0 ⟨[true, false, false], 2⟩)
          [5, 7] = some ⟨⟨[true, false, false], 2⟩, ⟨[true, true, true], 2⟩⟩
      ∧ ∃ s, objects.add_dst (fun n : Nat => (n, 1))
            (objects.copy 0 ⟨[true, false, false], 2⟩) [5, 7] = some s
          ∧ s.src = ⟨[true, false, false], 2⟩ :=
  ⟨by decide, by decide, by decide,
    (copy_independent (fun n : Nat => (n, 1)) 0 ⟨[], 0⟩ ⟨[true, false, false], 2⟩
      [5, 7]).2.2.2.2.2 (by decide) (by decide)⟩

/-- C16. Frame of `add`: on a filter with `m ≥ 1` and `k ≥ 1`, `add v` returns a filter
with the same probe count and the same number of bits, in which every bit derived for `v`
is true, every bit at an index that is not derived for `v` is what it was, and every bit
that was true is still true. -/
theorem add_frame {T : Type} (hash : T → Nat × Nat) (f : bloom_filter) (v : T)
    (hm : 1 ≤ f.bits.length) (hk : 1 ≤ f.number_of_hash_functions) :
    ∃ r f1, add hash f v = some (r, f1)
      ∧ f1.number_of_hash_functions = f.number_of_hash_functions
      ∧ f1.bits.length = f.bits.length
      ∧ (∀ j : Nat, j ∈ indices hash f v → f1.bits[j]? = some true)
      ∧ (∀ j : Nat, j ∉ indices hash f v → f1.bits[j]? = f.bits[j]?)
      ∧ (∀ j : Nat, f.bits[j]? = some true → f1.bits[j]? = some true) := by
  obtain ⟨bits', hadd, hl, hb⟩ := add_spec hash f v hm (by omega)
  have hget : ∀ j, j < f.bits.length → bits'.getD j false = true → bits'[j]? = some true := by
    intro j hj h
    rw [List.getD_eq_getElem?_getD, List.getElem?_eq_getElem (by rw [hl]; exact hj)] at h
    rw [List.getElem?_eq_getElem (by rw [hl]; exact hj)]
    simp only [Option.getD_some] at h
    rw [h]
  refine ⟨_, _, hadd, rfl, hl, ?_, ?_, ?_⟩
  · intro j hj
    apply hget j (probes_lt _ _ _ _ hm j hj)
    rw [hb j, decide_eq_true hj, Bool.or_true]
  · intro j hj
    apply getElem?_eq_of_getD _ _ hl
    rw [hb j, decide_eq_false hj, Bool.or_false]
  · intro j hj
    have hjlt : j < f.bits.length := by
      by_contra hcon
      rw [List.getElem?_eq_none (Nat.le_of_not_lt hcon)] at hj
      exact absurd hj (by simp)
    apply hget j hjlt
    rw [hb j, List.getD_eq_getElem?_getD, hj]
    rfl

/-- An instance of C16: five bits, two probes, at indices 0 and 1. -/
theorem add_frame_witness :
    1 ≤ (bloom_filter.mk [false, true, false, true, false] 2).bits.length
      ∧ 1 ≤ (bloom_filter.mk [false, true, false, true, false] 2).number_of_hash_functions
      ∧ add (fun n : Nat => (n, 1)) ⟨[false, true, false, true, false], 2⟩ 5
          = some (true, ⟨[true, true, false, true, false], 2⟩)
      ∧ ∃ r f1, add (fun n : Nat => (n, 1)) ⟨[false, true, false, true, false], 2⟩ 5
            = some (r, f1)
          ∧ f1.number_of_hash_functions = 2
          ∧ f1.bits.length = 5
          ∧ (∀ j : Nat,
              j ∈ indices (fun n : Nat => (n, 1)) ⟨[false, true, false, true, false], 2⟩ 5 →
              f1.bits[j]? = some true)
          ∧ (∀ j : Nat,
              j ∉ indices (fun n : Nat => (n, 1)) ⟨[false, true, false, true, false], 2⟩ 5 →
              f1.bits[j]? = [false, true, false, true, false][j]?)
          ∧ (∀ j : Nat, [false, true, false, true, false][j]? = some true →
              f1.bits[j]? = some true) :=
  ⟨by decide, by decide, by decide,
    add_frame (fun n : Nat => (n, 1)) ⟨[false, true, false, true, false], 2⟩ 5
      (by decide) (by decide)⟩

/-! ## Insertion order, the closed form of the probes, and filters without probes -/

/-- C18. Insertion order does not matter: on a filter with `m ≥ 1` and `k ≥ 1`, the two
calls `add a`, `add b` return in either order, and the filter after `add a` then `add b`
is the filter after `add b` then `add a`. -/
theorem add_commutes {T : Type} (hash : T → Nat × Nat) (f : bloom_filter) (a b : T)
    (hm : 1 ≤ f.bits.length) (hk : 1 ≤ f.number_of_hash_functions) :
    ∃ ra fa rab fab rb fb rba fba,
      add hash f a = some (ra, fa) ∧ add hash fa b = some (rab, fab)
        ∧ add hash f b = some (rb, fb) ∧ add hash fb a = some (rba, fba)
        ∧ fab = fba := by
  have hk0 : 0 ≤ f.number_of_hash_functions := by omega
  obtain ⟨bitsa, hadda, hla, hba⟩ := add_spec hash f a hm hk0
  obtain ⟨bitsb, haddb, hlb, hbb⟩ := add_spec hash f b hm hk0
  obtain ⟨bitsab, haddab, hlab, hbab⟩ :=
    add_spec hash ⟨bitsa, f.number_of_hash_functions⟩ b (by rw [hla]; exact hm) hk0
  obtain ⟨bitsba, haddba, hlba, hbba⟩ :=
    add_spec hash ⟨bitsb, f.number_of_hash_functions⟩ a (by rw [hlb]; exact hm) hk0
  rw [indices_congr hash f ⟨bitsa, f.number_of_hash_functions⟩ b rfl hla] at hbab
  rw [indices_congr hash f ⟨bitsb, f.number_of_hash_functions⟩ a rfl hlb] at hbba
  refine ⟨_, _, _, _, _, _, _, _, hadda, haddab, haddb, haddba, ?_⟩
  have hbits : bitsab = bitsba := by
    apply bits_ext _ _ (by rw [hlab, hlba]; show bitsa.length = bitsb.length; rw [hla, hlb])
    intro j
    rw [hbab j, hbba j]
    show (bitsa.getD j false || _) = (bitsb.getD j false || _)
    rw [hba j, hbb j, Bool.or_assoc, Bool.or_assoc,
      Bool.or_comm (decide (j ∈ indices hash f a))]
  rw [hbits]

/-- An instance of C18 in which the returned flags depend on the order: after `add 0` the
call `add 3` changes nothing, and the other way round it does. -/
theorem add_commutes_witness :
    1 ≤ (bloom_filter.mk [false, false, false] 1).bits.length
      ∧ 1 ≤ (bloom_filter.mk [false, false, false] 1).number_of_hash_functions
      ∧ add (fun n : Nat => (n, 1)) ⟨[false, false, false], 1⟩ 0
          = some (true, ⟨[true, false, false], 1⟩)
      ∧ add (fun n : Nat => (n, 1)) ⟨[true, false, false], 1⟩ 3
          = some (false, ⟨[true, false, false], 1⟩)
      ∧ ∃ ra fa rab fab rb fb rba fba,
          add (fun n : Nat => (n, 1)) ⟨[false, false, false], 1⟩ 0 = some (ra, fa)
            ∧ add (fun n : Nat => (n, 1)) fa 3 = some (rab, fab)
            ∧ add (fun n : Nat => (n, 1)) ⟨[false, false, false], 1⟩ 3 = some (rb, fb)
            ∧ add (fun n : Nat => (n, 1)) fb 0 = some (rba, fba)
            ∧ fab = fba :=
  ⟨by decide, by decide, by decide, by decide,
    add_commutes (fun n : Nat => (n, 1)) ⟨[false, false, false], 1⟩ 0 3
      (by decide) (by decide)⟩

/-- C19. A filter whose probe count is 0 does no probe: `exists` returns true, `add`
returns false and the same filter, whatever the bits are, the empty bit vector included,
where a single probe would be a modulo by zero and leave both calls without a result.  A
move leaves its source in such a state. -/
theorem no_probe_when_k_zero {T : Type} (hash : T → Nat × Nat) (f : bloom_filter) (v : T)
    (hk : f.number_of_hash_functions = 0) :
    «exists» hash f v = some true
      ∧ add hash f v = some (false, f)
      ∧ «exists» hash ⟨[], 0⟩ v = some true
      ∧ add hash ⟨[], 0⟩ v = some (false, ⟨[], 0⟩)
      ∧ «exists» hash ⟨[], 1⟩ v = none
      ∧ add hash ⟨[], 1⟩ v = none
      ∧ (∀ residue self that,
          (move_assign residue self that).2.number_of_hash_functions = 0) := by
  cases f with
  | mk bits k =>
    have hk' : k = 0 := hk
    subst hk'
    exact ⟨rfl, rfl, rfl, rfl, rfl, rfl, fun _ _ _ => rfl⟩

/-- An instance of C19: the source of a move whose vector is left empty. -/
theorem no_probe_when_k_zero_witness :
    (move_assign [] ⟨[], 5⟩ ⟨[true, false], 3⟩).2 = ⟨[], 0⟩
      ∧ (move_assign [] ⟨[], 5⟩ ⟨[true, false], 3⟩).2.number_of_hash_functions = 0
      ∧ «exists» (fun n : Nat => (n, 1)) (move_assign [] ⟨[], 5⟩ ⟨[true, false], 3⟩).2 4
          = some true
      ∧ add (fun n : Nat => (n, 1)) (move_assign [] ⟨[], 5⟩ ⟨[true, false], 3⟩).2 4
          = some (false, (move_assign [] ⟨[], 5⟩ ⟨[true, false], 3⟩).2) :=
  ⟨rfl, rfl,
    (no_probe_when_k_zero (fun n : Nat => (n, 1))
      (move_assign [] ⟨[], 5⟩ ⟨[true, false], 3⟩).2 4 rfl).1,
    (no_probe_when_k_zero (fun n : Nat => (n, 1))
      (move_assign [] ⟨[], 5⟩ ⟨[true, false], 3⟩).2 4 rfl).2.1⟩

theorem land_MAX_SIZE (h : Nat) : h &&& MAX_SIZE = h % 2 ^ 64 := by
  unfold MAX_SIZE
  exact Nat.and_pow_two_sub_one_eq_mod h 64

/-- The probes are `((h1 + i * h2) mod 2^64) mod m` for `i = 0, 1, ..`. -/
theorem probes_closed_form (i h1 h2 m : Nat) :
    probes i h1 h2 m = (List.range i).map (fun j => ((h1 + j * h2) % 2 ^ 64) % m) := by
  induction i generalizing h1 with
  | zero => rfl
  | succ i ih =>
    rw [probes, ih, List.range_succ_eq_map, List.map_cons, List.map_map, land_MAX_SIZE]
    congr 1
    · rw [Nat.zero_mul, Nat.add_zero]
    · apply List.map_congr_left
      intro j _
      show (((h1 + h2) % 2 ^ 64 + j * h2) % 2 ^ 64) % m = ((h1 + (j + 1) * h2) % 2 ^ 64) % m
      rw [Nat.mod_add_mod]
      congr 2
      ring

/-- C15. Double hashing closed form: on a filter with `m ≥ 1` and `k ≥ 1`, the indices
derived for `v` from its hash pair `(h1, h2)` by repeated wrapping addition are
`((h1 + i * h2) mod 2^64) mod m` for `i = 0 .. k - 1`, in this order; `exists` tests the
bits at exactly these indices and `add` sets the bits at exactly these indices; and the
mask with `MAX_SIZE` leaves every 64-bit value as it is. -/
theorem double_hashing_closed_form {T : Type} (hash : T → Nat × Nat) (f : bloom_filter)
    (v : T) (hm : 1 ≤ f.bits.length) (hk : 1 ≤ f.number_of_hash_functions) :
    indices hash f v
        = (List.range f.number_of_hash_functions.toNat).map
            (fun i => (((hash v).1 + i * (hash v).2) % 2 ^ 64) % f.bits.length)
      ∧ «exists» hash f v
          = some (((List.range f.number_of_hash_functions.toNat).map
              (fun i => (((hash v).1 + i * (hash v).2) % 2 ^ 64) % f.bits.length)).all
                (fun j => f.bits.getD j false))
      ∧ (∃ r f1, add hash f v = some (r, f1)
          ∧ ∀ j, f1.bits.getD j false
              = (f.bits.getD j false
                || decide (j ∈ (List.range f.number_of_hash_functions.toNat).map
                    (fun i => (((hash v).1 + i * (hash v).2) % 2 ^ 64) % f.bits.length))))
      ∧ (∀ h, h < 2 ^ 64 → h &&& MAX_SIZE = h) := by
  have hk0 : 0 ≤ f.number_of_hash_functions := by omega
  have hidx : indices hash f v
      = (List.range f.number_of_hash_functions.toNat).map
          (fun i => (((hash v).1 + i * (hash v).2) % 2 ^ 64) % f.bits.length) := by
    unfold indices
    exact probes_closed_form _ _ _ _
  obtain ⟨bits', hadd, _, hb⟩ := add_spec hash f v hm hk0
  refine ⟨hidx, ?_, ⟨_, _, hadd, ?_⟩, ?_⟩
  · rw [exists_spec hash f v hm hk0, hidx]
  · intro j
    rw [← hidx]
    exact hb j
  · intro h hh
    rw [land_MAX_SIZE, Nat.mod_eq_of_lt hh]

/-- An instance of C15 in which the accumulator wraps: `h1 = 2^64 - 1`, `h2 = 3`, so the
second probe is at `(2^64 + 2) mod 2^64 = 2`. -/
theorem double_hashing_closed_form_witness :
    1 ≤ (bloom_filter.mk [false, false, false, false, false] 3).bits.length
      ∧ 1 ≤ (bloom_filter.mk [false, false, false, false, false] 3).number_of_hash_functions
      ∧ indices (fun _ : Nat => (2 ^ 64 - 1, 3)) ⟨[false, false, false, false, false], 3⟩ 0
          = [0, 2, 0]
      ∧ indices (fun _ : Nat => (2 ^ 64 - 1, 3)) ⟨[false, false, false, false, false], 3⟩ 0
          = (List.range 3).map (fun i => (((2 ^ 64 - 1) + i * 3) % 2 ^ 64) % 5) :=
  ⟨by decide, by decide, by decide,
    (double_hashing_closed_form (fun _ : Nat => (2 ^ 64 - 1, 3))
      ⟨[false, false, false, false, false], 3⟩ 0 (by decide) (by decide)).1⟩

/-! ## The mixing hash reads inside its byte view -/

theorem getint64_some (p : List Nat) (i : Nat) (hi : i < p.length) :
    ∃ b, internal.getint64 p i = some b := by
  unfold internal.getint64
  rw [List.getElem?_eq_getElem hi]
  exact ⟨_, rfl⟩

theorem getblock64_some (p : List Nat) (i : Nat) (hi : 8 * i + 7 < p.length) :
    ∃ w, internal.getblock64 p i = some w := by
  obtain ⟨b0, h0⟩ := getint64_some p (8 * i) (by omega)
  obtain ⟨b1, h1⟩ := getint64_some p (8 * i + 1) (by omega)
  obtain ⟨b2, h2⟩ := getint64_some p (8 * i + 2) (by omega)
  obtain ⟨b3, h3⟩ := getint64_some p (8 * i + 3) (by omega)
  obtain ⟨b4, h4⟩ := getint64_some p (8 * i + 4) (by omega)
  obtain ⟨b5, h5⟩ := getint64_some p (8 * i + 5) (by omega)
  obtain ⟨b6, h6⟩ := getint64_some p (8 * i + 6) (by omega)
  obtain ⟨b7, h7⟩ := getint64_some p (8 * i + 7) hi
  unfold internal.getblock64
  rw [h0, h1, h2, h3, h4, h5, h6, h7]
  exact ⟨_, rfl⟩

/-- The body loop returns when its blocks `i .. i + remaining - 1` lie inside the view. -/
theorem body_loop_some (data : List Nat) (remaining i h1 h2 : Nat)
    (h : 16 * (i + remaining) ≤ data.length) :
    ∃ r, internal.body_loop data remaining i h1 h2 = some r := by
  induction remaining generalizing i h1 h2 with
  | zero => exact ⟨_, rfl⟩
  | succ n ih =>
    obtain ⟨k1, hk1⟩ := getblock64_some data (i * 2 + 0) (by omega)
    obtain ⟨k2, hk2⟩ := getblock64_some data (i * 2 + 1) (by omega)
    unfold internal.body_loop
    rw [hk1, hk2]
    exact ih (i + 1) _ _ (by omega)

/-- A run of labels of the tail switch returns when the tail bytes `0 .. r - 1` lie inside
the view: the label `c ≥ 1` reads the tail byte `c - 1`, and only when `c ≤ r`. -/
theorem tail_bytes_some (data : List Nat) (off r : Nat) (cases : List (Nat × Nat)) (k : Nat)
    (hc : ∀ cs ∈ cases, 1 ≤ cs.1) (h : off + r ≤ data.length) :
    ∃ k', internal.tail_bytes data off r cases k = some k' := by
  induction cases generalizing k with
  | nil => exact ⟨_, rfl⟩
  | cons cs rest ih =>
    obtain ⟨c, shift⟩ := cs
    have hc1 : 1 ≤ c := hc (c, shift) (List.mem_cons_self _ _)
    have hrest : ∀ cs ∈ rest, 1 ≤ cs.1 := fun cs hcs => hc cs (List.mem_cons_of_mem _ hcs)
    unfold internal.tail_bytes
    by_cases hcr : c ≤ r
    · obtain ⟨b, hb⟩ := getint64_some data (off + (c - 1)) (by omega)
      rw [if_pos hcr, hb]
      exact ih _ hrest
    · rw [if_neg hcr]
      exact ih _ hrest

theorem swap_endianess_lt (val : Nat) : internal.swap_endianess val < 2 ^ 64 := by
  have hand : ∀ c s : Nat, c < 2 ^ 64 → (val &&& c) >>> s < 2 ^ 64 := by
    intro c s hc
    rw [Nat.shiftRight_eq_div_pow]
    exact lt_of_le_of_lt (Nat.div_le_self _ _) (lt_of_le_of_lt Nat.and_le_right hc)
  have hmod : ∀ x : Nat, x % 2 ^ 64 < 2 ^ 64 := fun x => Nat.mod_lt _ (by norm_num)
  unfold internal.swap_endianess
  simp only
  refine Nat.or_lt_two_pow (Nat.or_lt_two_pow (Nat.or_lt_two_pow (Nat.or_lt_two_pow
    (Nat.or_lt_two_pow (Nat.or_lt_two_pow (Nat.or_lt_two_pow (hmod _) (hmod _)) (hmod _))
      (hmod _)) (hand _ _ (by norm_num))) (hand _ _ (by norm_num))) (hand _ _ (by norm_num)))
    (hand _ _ (by norm_num))

theorem getint64_take (key : List Nat) (len i : Nat) (hi : i < len) :
    internal.getint64 (key.take len) i = internal.getint64 key i := by
  unfold internal.getint64
  rw [List.getElem?_take, if_pos hi]

theorem getblock64_take (key : List Nat) (len i : Nat) (hi : 8 * i + 7 < len) :
    internal.getblock64 (key.take len) i = internal.getblock64 key i := by
  unfold internal.getblock64
  rw [getint64_take key len (8 * i) (by omega), getint64_take key len (8 * i + 1) (by omega),
    getint64_take key len (8 * i + 2) (by omega), getint64_take key len (8 * i + 3) (by omega),
    getint64_take key len (8 * i + 4) (by omega), getint64_take key len (8 * i + 5) (by omega),
    getint64_take key len (8 * i + 6) (by omega), getint64_take key len (8 * i + 7) hi]

theorem body_loop_take (key : List Nat) (len remaining i h1 h2 : Nat)
    (h : 16 * (i + remaining) ≤ len) :
    internal.body_loop (key.take len) remaining i h1 h2
      = internal.body_loop key remaining i h1 h2 := by
  induction remaining generalizing i h1 h2 with
  | zero => rfl
  | succ n ih =>
    unfold internal.body_loop
    rw [getblock64_take key len (i * 2 + 0) (by omega),
      getblock64_take key len (i * 2 + 1) (by omega)]
    cases internal.getblock64 key (i * 2 + 0) with
    | none => rfl
    | some k1 =>
      cases internal.getblock64 key (i * 2 + 1) with
      | none => rfl
      | some k2 => exact ih (i + 1) _ _ (by omega)

theorem tail_bytes_take (key : List Nat) (len off r : Nat) (cases : List (Nat × Nat))
    (k : Nat) (hc : ∀ cs ∈ cases, 1 ≤ cs.1) (h : off + r ≤ len) :
    internal.tail_bytes (key.take len) off r cases k
      = internal.tail_bytes key off r cases k := by
  induction cases generalizing k with
  | nil => rfl
  | cons cs rest ih =>
    obtain ⟨c, shift⟩ := cs
    have hc1 : 1 ≤ c := hc (c, shift) (List.mem_cons_self _ _)
    have hrest : ∀ cs ∈ rest, 1 ≤ cs.1 := fun cs hcs => hc cs (List.mem_cons_of_mem _ hcs)
    unfold internal.tail_bytes
    by_cases hcr : c ≤ r
    · rw [if_pos hcr, if_pos hcr, getint64_take key len (off + (c - 1)) (by omega)]
      cases internal.getint64 key (off + (c - 1)) with
      | none => rfl
      | some b => exact ih _ hrest
    · rw [if_neg hcr, if_neg hcr]
      exact ih _ hrest

/-- The hash of a view of length `len` is the hash of its first `len` bytes alone. -/
theorem murmur3_128_take (key : List Nat) (len seed : Nat) (endianess_reverse : Bool) :
    internal.murmur3_128 (key.take len) len seed endianess_reverse
      = internal.murmur3_128 key len seed endianess_reverse := by
  have hr : len &&& 15 = len % 16 := Nat.and_pow_two_sub_one_eq_mod _ 4
  have hsplit : len / 16 * 16 + len % 16 = len := Nat.div_add_mod' _ _
  unfold internal.murmur3_128
  simp only
  rw [body_loop_take key len (len / 16) 0 seed seed (by omega),
    tail_bytes_take key len (len / 16 * 16) (len &&& 15) internal.k2_cases 0 (by decide)
      (by omega),
    tail_bytes_take key len (len / 16 * 16) (len &&& 15) internal.k1_cases 0 (by decide)
      (by omega)]

/-- C17. The mixing hash is total: on every byte view of length `len`, the empty one
included, with every seed and either value of the flag, `murmur3_128` returns a pair of
64-bit words.  The reads of the model have no result outside the buffer, and the result is
the one obtained on the first `len` bytes alone, where any read at an index from `len` on
would have none: every byte that is read, by the `len / 16` blocks and by the labels of
the tail switch, has an index below `len`. -/
theorem murmur3_128_total (key : List Nat) (len seed : Nat) (endianess_reverse : Bool)
    (hlen : len ≤ key.length) :
    ∃ h1 h2, internal.murmur3_128 key len seed endianess_reverse = some (h1, h2)
      ∧ h1 < 2 ^ 64 ∧ h2 < 2 ^ 64
      ∧ internal.murmur3_128 (key.take len) len seed endianess_reverse = some (h1, h2) := by
  have hr : len &&& 15 = len % 16 := Nat.and_pow_two_sub_one_eq_mod _ 4
  have hsplit : len / 16 * 16 + len % 16 = len := Nat.div_add_mod' _ _
  obtain ⟨⟨a1, a2⟩, hbody⟩ := body_loop_some key (len / 16) 0 seed seed (by omega)
  obtain ⟨k2, hk2⟩ := tail_bytes_some key (len / 16 * 16) (len &&& 15)
    internal.k2_cases 0 (by decide) (by omega)
  obtain ⟨k1, hk1⟩ := tail_bytes_some key (len / 16 * 16) (len &&& 15)
    internal.k1_cases 0 (by decide) (by omega)
  have hmod : ∀ x : Nat, x % 2 ^ 64 < 2 ^ 64 := fun x => Nat.mod_lt _ (by norm_num)
  rw [murmur3_128_take]
  unfold internal.murmur3_128
  simp only [hbody, hk2, hk1]
  cases endianess_reverse with
  | false => exact ⟨_, _, rfl, hmod _, hmod _, rfl⟩
  | true => exact ⟨_, _, rfl, swap_endianess_lt _, swap_endianess_lt _, rfl⟩

/-- An instance of C17: the five bytes of `hello` in a buffer that ends with the
terminator of `c_str()`; and the empty view. -/
theorem murmur3_128_total_witness :
    5 ≤ [104, 101, 108, 108, 111, 0].length
      ∧ (∃ h1 h2, internal.murmur3_128 [104, 101, 108, 108, 111, 0] 5 4011 false
            = some (h1, h2)
          ∧ h1 < 2 ^ 64 ∧ h2 < 2 ^ 64
          ∧ internal.murmur3_128 ([104, 101, 108, 108, 111, 0].take 5) 5 4011 false
            = some (h1, h2))
      ∧ 0 ≤ ([] : List Nat).length
      ∧ (∃ h1 h2, internal.murmur3_128 [] 0 4011 false = some (h1, h2)
          ∧ h1 < 2 ^ 64 ∧ h2 < 2 ^ 64
          ∧ internal.murmur3_128 (([] : List Nat).take 0) 0 4011 false = some (h1, h2)) :=
  ⟨by decide, murmur3_128_total [104, 101, 108, 108, 111, 0] 5 4011 false (by decide),
    by decide, murmur3_128_total [] 0 4011 false (by decide)⟩

/-! ## The convenience constructor -/

theorem size_t_to_int64_of_lt (m : Nat) (hm : m < 2 ^ 63) : size_t_to_int64 m = m := by
  have h64 : m % 2 ^ 64 = m := Nat.mod_eq_of_lt (by omega)
  unfold size_t_to_int64
  rw [h64, if_pos hm]

theorem new_ok (size : Nat) (k : Int) (f : bloom_filter) (h : new size k = Except.ok f) :
    f = ⟨List.replicate size false, k⟩ ∧ 1 ≤ size ∧ 1 ≤ k := by
  unfold new at h
  by_cases hs : size = 0
  · simp [hs] at h
  · by_cases hk : k ≤ 0
    · simp [hs, hk] at h
    · simp only [hs, hk, if_false] at h
      exact ⟨(Except.ok.inj h).symm, by omega, by omega⟩

theorem optimal_number_of_bits_100 (rnd ln : ℝ → ℝ) (hr : dbl.rounds_to_nearest rnd)
    (hl : log_accurate ln) :
    optimal_number_of_bits rnd ln 100 (dbl.fin (rnd (1 / 100))) = some 958 := by
  obtain ⟨hlo, hhi, hp0, hp1⟩ := bits_quotient_100 rnd hr
  apply optimal_number_of_bits_value rnd ln hr hl 100 _ (by norm_num) (by norm_num)
    hp0 hp1 958
  · norm_num
    linarith
  · norm_num
    linarith

theorem optimal_number_of_hash_functions_100 (rnd ln : ℝ → ℝ)
    (hr : dbl.rounds_to_nearest rnd) (hl : log_accurate ln) :
    optimal_number_of_hash_functions rnd ln 100 958 = some 7 := by
  have hxb : (6.64 : ℝ) < hash_product Real.log 100 958
      ∧ hash_product Real.log 100 958 < 6.65 := by
    have h2l := Real.log_two_gt_d9
    have h2u := Real.log_two_lt_d9
    unfold hash_product
    push_cast
    norm_num at h2l h2u ⊢
    constructor <;> linarith
  have habs : |hash_product Real.log 100 958| = hash_product Real.log 100 958 :=
    abs_of_pos (by linarith [hxb.1])
  apply optimal_number_of_hash_functions_value rnd ln hr hl 100 958 (by norm_num)
    (by norm_num) (by norm_num) 7 (by norm_num) (by norm_num)
  · rw [habs]; norm_num; nlinarith [hxb.1, hxb.2]
  · rw [habs]; norm_num; nlinarith [hxb.1, hxb.2]

/-- The filter of the demonstration: 100 expected insertions at a target rate of 0.01 give
958 bits and 7 probes, the quotient being about 958.5 and the product about 6.64. -/
theorem make_bloom_filter_100 (rnd ln : ℝ → ℝ) (hr : dbl.rounds_to_nearest rnd)
    (hl : log_accurate ln) :
    make_bloom_filter rnd ln 100 (dbl.fin (rnd (1 / 100)))
      = some (Except.ok ⟨List.replicate 958 false, 7⟩) := by
  have h958 : size_t_to_int64 958 = 958 := by
    rw [size_t_to_int64_of_lt 958 (by norm_num)]
    rfl
  unfold make_bloom_filter
  simp only [show ¬ ((100 : Int) = 0) by decide, if_false,
    optimal_number_of_bits_100 rnd ln hr hl, h958,
    optimal_number_of_hash_functions_100 rnd ln hr hl]
  rfl

/-- C11. `make_bloom_filter` treats `n = 0` as `n = 1`: it does at `(0, p)` what it does at
`(1, p)`.  And whenever it returns a filter, then with `n'` the count after the
substitution, `optimal_number_of_bits(n', p)` is a number `m ≥ 1`,
`optimal_number_of_hash_functions(n', m)` is a number `k ≥ 1` (its argument `m` being
converted to `std::int64_t`, which leaves every `m < 2^63` as it is), and the filter has
`m` bits, all false, and probe count `k`.  This holds in any arithmetic: for every field,
every rounding and every library logarithm. -/
theorem make_bloom_filter_spec {F : Type} [LinearOrderedField F] [FloorRing F]
    (rnd ln : F → F) (n : Int) (p : dbl F) :
    make_bloom_filter rnd ln 0 p = make_bloom_filter rnd ln 1 p
      ∧ (∀ f, make_bloom_filter rnd ln n p = some (Except.ok f) →
          ∃ m k, optimal_number_of_bits rnd ln (if n = 0 then 1 else n) p = some m
            ∧ optimal_number_of_hash_functions rnd ln (if n = 0 then 1 else n)
                (size_t_to_int64 m) = some k
            ∧ (m < 2 ^ 63 → size_t_to_int64 m = m)
            ∧ f = ⟨List.replicate m false, k⟩ ∧ 1 ≤ m ∧ 1 ≤ k) := by
  refine ⟨rfl, ?_⟩
  intro f hf
  unfold make_bloom_filter at hf
  simp only at hf
  cases hbits : optimal_number_of_bits rnd ln (if n = 0 then 1 else n) p with
  | none => simp [hbits] at hf
  | some m =>
    rw [hbits] at hf
    simp only at hf
    cases hk : optimal_number_of_hash_functions rnd ln (if n = 0 then 1 else n)
        (size_t_to_int64 m) with
    | none => simp [hk] at hf
    | some k =>
      rw [hk] at hf
      simp only [Option.some.injEq] at hf
      exact ⟨m, k, rfl, hk, size_t_to_int64_of_lt m, new_ok m k f hf⟩

/-- An instance of C11: the filter of the demonstration, in exact arithmetic. -/
theorem make_bloom_filter_spec_witness :
    make_bloom_filter id Real.log 100 (dbl.fin (1 / 100))
        = some (Except.ok ⟨List.replicate 958 false, 7⟩)
      ∧ ∃ m k, optimal_number_of_bits id Real.log (if (100 : Int) = 0 then 1 else 100)
              (dbl.fin (1 / 100)) = some m
          ∧ optimal_number_of_hash_functions id Real.log (if (100 : Int) = 0 then 1 else 100)
              (size_t_to_int64 m) = some k
          ∧ (m < 2 ^ 63 → size_t_to_int64 m = m)
          ∧ (bloom_filter.mk (List.replicate 958 false) 7) = ⟨List.replicate m false, k⟩
          ∧ 1 ≤ m ∧ 1 ≤ k :=
  ⟨make_bloom_filter_100 id Real.log rounds_to_nearest_id log_accurate_exact,
    (make_bloom_filter_spec id Real.log 100 (dbl.fin (1 / 100))).2 _
      (make_bloom_filter_100 id Real.log rounds_to_nearest_id log_accurate_exact)⟩

theorem hash_product_computed_zero (rnd ln : ℝ → ℝ) (hr : dbl.rounds_to_nearest rnd)
    (n : Int) : hash_product_computed rnd ln n 0 = 0 := by
  simp only [hash_product_computed, Int.cast_zero, hr.2.1, zero_div, zero_mul]

/-- With no bits at all the rounded product is 0 and one probe is asked for. -/
theorem optimal_number_of_hash_functions_zero_bits (rnd ln : ℝ → ℝ)
    (hr : dbl.rounds_to_nearest rnd) (n : Int) (hn : n ≠ 0) :
    optimal_number_of_hash_functions rnd ln n 0 = some 1 := by
  have hround : dbl.round_half_away (hash_product_computed rnd ln n 0) = 0 := by
    rw [hash_product_computed_zero rnd ln hr n]
    simp only [dbl.round_half_away, le_refl, if_true]
    rw [Int.floor_eq_iff]
    norm_num
  rw [optimal_number_of_hash_functions_of_ne_zero rnd ln hr n 0 hn, hround,
    to_int32_fin_int _ (by decide)]
  rfl

/-- When the number of bits computed is 0, `make_bloom_filter` constructs a filter of size
0, which the constructor rejects. -/
theorem make_bloom_filter_of_zero_bits (rnd ln : ℝ → ℝ) (hr : dbl.rounds_to_nearest rnd)
    (n : Int) (p : dbl ℝ) (hn0 : n ≠ 0)
    (hbits : optimal_number_of_bits rnd ln n p = some 0) :
    make_bloom_filter rnd ln n p = some (Except.error "size must be greater than 0") := by
  have h0 : size_t_to_int64 0 = 0 := by
    rw [size_t_to_int64_of_lt 0 (by norm_num)]
    rfl
  unfold make_bloom_filter
  simp only [hn0, if_false, hbits, h0, optimal_number_of_hash_functions_zero_bits rnd ln hr n hn0]
  rfl

/-- The library logarithm of 1 is 0. -/
theorem ln_one (ln : ℝ → ℝ) (hl : log_accurate ln) : ln 1 = 0 := by
  have h := hl 1 one_pos
  rw [Real.log_one, abs_zero, mul_zero, sub_zero] at h
  exact abs_eq_zero.mp (le_antisymm h (abs_nonneg _))

/-- At `p = 1` the number of bits computed is 0, for every `n` that has a negation. -/
theorem optimal_number_of_bits_one (rnd ln : ℝ → ℝ) (hr : dbl.rounds_to_nearest rnd)
    (hl : log_accurate ln) (n : Int) (hn : n ≠ -(2 : Int) ^ 63) :
    optimal_number_of_bits rnd ln n (dbl.fin 1) = some 0 := by
  have hq : bits_quotient_computed rnd ln n 1 = 0 := by
    simp only [bits_quotient_computed, ln_one ln hl, mul_zero, hr.2.1, zero_div]
  rw [optimal_number_of_bits_of_pos rnd ln hr hl n 1 hn one_pos, hq,
    to_size_t_fin 0 (by norm_num) (by norm_num), Nat.floor_zero]

/-- The exact quotient at `n = 1` and the double of `0.9` lies between 0 and 0.3. -/
theorem bits_quotient_nine_tenths (rnd : ℝ → ℝ) (hr : dbl.rounds_to_nearest rnd) :
    0 ≤ bits_quotient Real.log 1 (rnd (9 / 10))
      ∧ bits_quotient Real.log 1 (rnd (9 / 10)) < 3 / 10
      ∧ 1 / 2 ^ 1074 ≤ rnd (9 / 10) ∧ rnd (9 / 10) ≤ 1 - 1 / 2 ^ 53 := by
  obtain ⟨hsl, _⟩ := log_two_sq_bounds
  obtain ⟨hlo, hhi, hloglo, _⟩ := log_rnd_bounds rnd hr (9 / 10) (by norm_num) (by norm_num)
  have hsq : (0 : ℝ) < (Real.log 2) ^ 2 := by linarith
  have hlog : 1 - ((9 : ℝ) / 10)⁻¹ ≤ Real.log (9 / 10) :=
    Real.one_sub_inv_le_log_of_pos (by norm_num)
  have hp0 : 1 / 2 ^ 1074 ≤ rnd (9 / 10) := le_trans (by norm_num) hlo
  have hp1 : rnd (9 / 10) ≤ 1 - 1 / 2 ^ 53 := le_trans hhi (by norm_num)
  refine ⟨bits_quotient_nonneg 1 _ (by decide) (lt_of_lt_of_le (by positivity) hp0)
    (le_trans hp1 (by norm_num)), ?_, hp0, hp1⟩
  unfold bits_quotient
  rw [div_lt_iff₀ hsq]
  push_cast
  norm_num at hlog hloglo ⊢
  linarith

/-- C20. `make_bloom_filter` does not always produce a filter, whatever the rounding and
the library logarithm, within the assumptions.  At `p = 1`, for every expected insertion
count `n` (every `std::int64_t` that has a negation), the number of bits computed is 0 and
the constructor throws its invalid-argument error.  The same happens at `n = 1`,
`p = 0.9`, inside `n ≥ 1`, `0 < p < 1`: the quotient `-n * ln p / (ln 2)^2` is below 1 and
is truncated to 0. -/
theorem make_bloom_filter_fails (rnd ln : ℝ → ℝ) (hr : dbl.rounds_to_nearest rnd)
    (hl : log_accurate ln) :
    (∀ n : Int, n ≠ -(2 : Int) ^ 63 →
        optimal_number_of_bits rnd ln (if n = 0 then 1 else n) (dbl.fin 1) = some 0
          ∧ make_bloom_filter rnd ln n (dbl.fin 1)
              = some (Except.error "size must be greater than 0"))
      ∧ (bits_quotient Real.log 1 (rnd (9 / 10)) < 1
          ∧ optimal_number_of_bits rnd ln 1 (dbl.fin (rnd (9 / 10))) = some 0
          ∧ make_bloom_filter rnd ln 1 (dbl.fin (rnd (9 / 10)))
              = some (Except.error "size must be greater than 0")) := by
  constructor
  · intro n hn
    by_cases h0 : n = 0
    · subst h0
      have hb := optimal_number_of_bits_one rnd ln hr hl 1 (by decide)
      exact ⟨hb, make_bloom_filter_of_zero_bits rnd ln hr 1 _ (by decide) hb⟩
    · have hb := optimal_number_of_bits_one rnd ln hr hl n hn
      rw [if_neg h0]
      exact ⟨hb, make_bloom_filter_of_zero_bits rnd ln hr n _ h0 hb⟩
  · obtain ⟨h0, h1, hp0, hp1⟩ := bits_quotient_nine_tenths rnd hr
    have hb : optimal_number_of_bits rnd ln 1 (dbl.fin (rnd (9 / 10))) = some 0 := by
      apply optimal_number_of_bits_value rnd ln hr hl 1 _ (by norm_num) (by norm_num)
        hp0 hp1 0
      · push_cast
        exact mul_nonneg h0 (by norm_num)
      · push_cast
        have h49 : (1 : ℝ) + 1 / 2 ^ 49 ≤ 2 := by norm_num
        nlinarith
    exact ⟨by linarith, hb, make_bloom_filter_of_zero_bits rnd ln hr 1 _ (by decide) hb⟩

/-- An instance of C20, in exact arithmetic: 100 expected insertions at `p = 1`, and one at
`p = 0.9`. -/
theorem make_bloom_filter_fails_witness :
    dbl.rounds_to_nearest (id : ℝ → ℝ) ∧ log_accurate Real.log
      ∧ (100 : Int) ≠ -(2 : Int) ^ 63
      ∧ optimal_number_of_bits id Real.log (if (100 : Int) = 0 then 1 else 100) (dbl.fin 1)
          = some 0
      ∧ make_bloom_filter id Real.log 100 (dbl.fin 1)
          = some (Except.error "size must be greater than 0")
      ∧ bits_quotient Real.log 1 (9 / 10) < 1
      ∧ optimal_number_of_bits id Real.log 1 (dbl.fin (9 / 10)) = some 0
      ∧ make_bloom_filter id Real.log 1 (dbl.fin (9 / 10))
          = some (Except.error "size must be greater than 0") :=
  ⟨rounds_to_nearest_id, log_accurate_exact, by decide,
    ((make_bloom_filter_fails id Real.log rounds_to_nearest_id log_accurate_exact).1 100
      (by decide)).1,
    ((make_bloom_filter_fails id Real.log rounds_to_nearest_id log_accurate_exact).1 100
      (by decide)).2,
    (make_bloom_filter_fails id Real.log rounds_to_nearest_id log_accurate_exact).2.1,
    (make_bloom_filter_fails id Real.log rounds_to_nearest_id log_accurate_exact).2.2.1,
    (make_bloom_filter_fails id Real.log rounds_to_nearest_id log_accurate_exact).2.2.2⟩

/-! ## The demonstration with strings -/

theorem hash_hello :
    internal.default_hasher_string_hash program.hello
      = (14099363078947205882, 18274197484398352460) := by
  decide

theorem hash_world :
    internal.default_hasher_string_hash program.world
      = (3763207981152394747, 18353270582533968597) := by
  decide

theorem hash_cpp :
    internal.default_hasher_string_hash program.cpp
      = (595412915208414550, 14425842277726032923) := by
  decide

theorem indices_hello (f : bloom_filter) (hk : f.number_of_hash_functions = 7)
    (hl : f.bits.length = 958) :
    indices internal.default_hasher_string_hash f program.hello
      = [610, 698, 786, 874, 4, 92, 180] := by
  unfold indices
  rw [hk, hl, hash_hello]
  decide

theorem indices_world (f : bloom_filter) (hk : f.number_of_hash_functions = 7)
    (hl : f.bits.length = 958) :
    indices internal.default_hasher_string_hash f program.world
      = [59, 254, 449, 644, 839, 76, 271] := by
  unfold indices
  rw [hk, hl, hash_world]
  decide

theorem indices_cpp (f : bloom_filter) (hk : f.number_of_hash_functions = 7)
    (hl : f.bits.length = 958) :
    indices internal.default_hasher_string_hash f program.cpp
      = [22, 771, 638, 505, 372, 163, 30] := by
  unfold indices
  rw [hk, hl, hash_cpp]
  decide

/-- C12. The demonstration with strings, whatever the rounding and the library logarithm,
within the assumptions: `make_bloom_filter<std::string>(100, 0.01)` returns a filter, and
with the default hasher, from that fresh filter, `add("hello")` returns true, then
`add("world")` returns true, then `add("hello")` returns false, then `exists("hello")`
returns true and `exists("C++")` returns false. -/
theorem string_scenario (rnd ln : ℝ → ℝ) (hr : dbl.rounds_to_nearest rnd)
    (hl : log_accurate ln) :
    ∃ f0 f1 f2 f3,
      make_bloom_filter rnd ln 100 (dbl.fin (rnd (1 / 100))) = some (Except.ok f0)
        ∧ add internal.default_hasher_string_hash f0 program.hello = some (true, f1)
        ∧ add internal.default_hasher_string_hash f1 program.world = some (true, f2)
        ∧ add internal.default_hasher_string_hash f2 program.hello = some (false, f3)
        ∧ «exists» internal.default_hasher_string_hash f3 program.hello = some true
        ∧ «exists» internal.default_hasher_string_hash f3 program.cpp = some false := by
  have hl0 : (bloom_filter.mk (List.replicate 958 false) 7).bits.length = 958 :=
    List.length_replicate 958 false
  have hm0 : 0 < (bloom_filter.mk (List.replicate 958 false) 7).bits.length := by
    rw [hl0]; decide
  have hk0 : (0 : Int) ≤ 7 := by decide
  -- the first `add("hello")`
  obtain ⟨bits1, hadd1, hl1, hb1⟩ :=
    add_spec internal.default_hasher_string_hash ⟨List.replicate 958 false, 7⟩ program.hello
      hm0 hk0
  rw [indices_hello _ rfl hl0] at hadd1 hb1
  have hb1' : ∀ j, bits1.getD j false = decide (j ∈ [610, 698, 786, 874, 4, 92, 180]) := by
    intro j
    rw [hb1 j]
    show ((List.replicate 958 false).getD j false || _) = _
    rw [getD_replicate_false, Bool.false_or]
  have hr1 : ([610, 698, 786, 874, 4, 92, 180].any
      (fun j => !((bloom_filter.mk (List.replicate 958 false) 7).bits.getD j false))) = true := by
    rw [List.any_eq_true]
    refine ⟨610, by decide, ?_⟩
    show (!((List.replicate 958 false).getD 610 false)) = true
    rw [getD_replicate_false]
    rfl
  rw [hr1] at hadd1
  have hl1' : (bloom_filter.mk bits1 7).bits.length = 958 := by
    show bits1.length = 958
    rw [hl1, hl0]
  have hm1 : 0 < (bloom_filter.mk bits1 7).bits.length := by rw [hl1']; decide
  -- `add("world")`
  obtain ⟨bits2, hadd2, hl2, hb2⟩ :=
    add_spec internal.default_hasher_string_hash ⟨bits1, 7⟩ program.world hm1 hk0
  rw [indices_world _ rfl hl1'] at hadd2 hb2
  have hb2' : ∀ j, bits2.getD j false
      = (decide (j ∈ [610, 698, 786, 874, 4, 92, 180])
          || decide (j ∈ [59, 254, 449, 644, 839, 76, 271])) := by
    intro j
    rw [hb2 j]
    show (bits1.getD j false || _) = _
    rw [hb1' j]
  have hr2 : ([59, 254, 449, 644, 839, 76, 271].any
      (fun j => !((bloom_filter.mk bits1 7).bits.getD j false))) = true := by
    rw [List.any_eq_true]
    refine ⟨59, by decide, ?_⟩
    show (!(bits1.getD 59 false)) = true
    rw [hb1' 59]
    decide
  rw [hr2] at hadd2
  have hl2' : (bloom_filter.mk bits2 7).bits.length = 958 := by
    show bits2.length = 958
    rw [hl2, hl1']
  have hm2 : 0 < (bloom_filter.mk bits2 7).bits.length := by rw [hl2']; decide
  -- the second `add("hello")` and the two queries
  have hset : ∀ j ∈ indices internal.default_hasher_string_hash ⟨bits2, 7⟩ program.hello,
      (bloom_filter.mk bits2 7).bits.getD j false = true := by
    intro j hj
    rw [indices_hello _ rfl hl2'] at hj
    show bits2.getD j false = true
    rw [hb2' j, decide_eq_true hj, Bool.true_or]
  have hadd3 := add_of_all_set internal.default_hasher_string_hash ⟨bits2, 7⟩ program.hello
    hm2 hk0 hset
  have hex1 := exists_of_all_set internal.default_hasher_string_hash ⟨bits2, 7⟩ program.hello
    hm2 hk0 hset
  have hex2 : «exists» internal.default_hasher_string_hash ⟨bits2, 7⟩ program.cpp
      = some false := by
    have hall : ([22, 771, 638, 505, 372, 163, 30].all
        (fun j => (bloom_filter.mk bits2 7).bits.getD j false)) = false := by
      rw [List.all_eq_false]
      refine ⟨22, by decide, ?_⟩
      show ¬ (bits2.getD 22 false = true)
      rw [hb2' 22]
      decide
    rw [exists_spec _ _ _ hm2 hk0, indices_cpp _ rfl hl2', hall]
  exact ⟨_, _, _, _, make_bloom_filter_100 rnd ln hr hl, hadd1, hadd2, hadd3, hex1, hex2⟩

/-- An instance of C12, in exact arithmetic. -/
theorem string_scenario_witness :
    dbl.rounds_to_nearest (id : ℝ → ℝ) ∧ log_accurate Real.log
      ∧ ∃ f0 f1 f2 f3,
          make_bloom_filter id Real.log 100 (dbl.fin (1 / 100)) = some (Except.ok f0)
            ∧ add internal.default_hasher_string_hash f0 program.hello = some (true, f1)
            ∧ add internal.default_hasher_string_hash f1 program.world = some (true, f2)
            ∧ add internal.default_hasher_string_hash f2 program.hello = some (false, f3)
            ∧ «exists» internal.default_hasher_string_hash f3 program.hello = some true
            ∧ «exists» internal.default_hasher_string_hash f3 program.cpp = some false :=
  ⟨rounds_to_nearest_id, log_accurate_exact,
    string_scenario id Real.log rounds_to_nearest_id log_accurate_exact⟩

end bloom_filter
